import Mathlib

/-!
# GraniteKV: the Bitcask storage engine (`src/storage/bitcask.cpp`, `inc/bitcask.h`)

A shallow embedding of `granite::storage::BitcaskStore`.

Modelling conventions.

* A `std::string` is a list of bytes; a byte is a `Fin 256`.
* The data file behind `fd_` is the list of its bytes.  The file is opened with
  `O_APPEND`, so `write` appends at the end; `lseek(fd_, 0, SEEK_END)` is the
  length; `pread(fd_, buf, count, offset)` copies the bytes that exist in
  `[offset, offset + count)` and returns how many there were.
* One `write` call transfers at most `0x7ffff000` bytes (`MAX_RW_COUNT`, the
  limit of Linux): a longer buffer is written short, and `append_entry` then
  throws `std::runtime_error`, leaving in the file what was written up to there.
  The other failures of the operating system (`open` or `lseek` returning `-1`,
  a full device, an I/O error) are outside the model: the `throw` branches
  guarded by them are never taken.  `pread` is modelled without that limit.
* `uint32_t` values are naturals reduced modulo `2 ^ 32` at every cast.  The
  64-bit quantities (`off_t`, `uint64_t`, `size_t`) are naturals: file sizes
  stay far below `2 ^ 63`, so they never wrap.
* The `LogHeader` object representation is the one of a little-endian host.
* `std::time(nullptr)` reads an oracle carried by the state: the `n`-th read
  of the clock returns `clock n`.
* `std::unordered_map` is an association list with at most one entry per key.
* The output on `std::cout` / `std::cerr` is not modelled.
-/

namespace granite

/-- One byte of a file or of a `std::string`. -/
abbrev Byte := Fin 256

/-- The contents of a `std::string`, of a buffer, or of a file. -/
abbrev Bytes := List Byte

/-- The byte holding the low eight bits of `n`. -/
def byte_of (n : Nat) : Byte := Fin.ofNat n

/-- The cast `static_cast<uint32_t>(n)`. -/
def u32 (n : Nat) : Nat := n % 4294967296

/-- The four bytes of a `uint32_t` object on a little-endian host. -/
def u32_bytes (n : Nat) : Bytes :=
  [byte_of n, byte_of (n / 256), byte_of (n / 65536), byte_of (n / 16777216)]

/-- The `uint32_t` whose object representation starts the given bytes
(little-endian host); missing bytes read as zero. -/
def u32_of_bytes (b : Bytes) : Nat :=
  (b.getD 0 0).val + 256 * (b.getD 1 0).val + 65536 * (b.getD 2 0).val
    + 16777216 * (b.getD 3 0).val

/-- The bytes of an ASCII string literal, as the tests pass them. -/
def str (s : String) : Bytes := s.toList.map (fun c => byte_of c.toNat)

namespace utils

/-- One shift of the reflected CRC-32 register (polynomial `0xEDB88320`). -/
def crc32_shift (crc : Nat) : Nat :=
  if crc % 2 = 1 then (crc / 2) ^^^ 3988292384 else crc / 2

/-- The CRC-32 register after one more byte. -/
def crc32_update (crc : Nat) (b : Byte) : Nat :=
  crc32_shift (crc32_shift (crc32_shift (crc32_shift (crc32_shift (crc32_shift
    (crc32_shift (crc32_shift (crc ^^^ b.val))))))))

/-- Modelled from the spec: `utils::crc32` is declared in `inc/crc32.h` but its
implementation is not among the sources; the spec describes it as a
deterministic 32-bit "standard cyclic-redundancy" integrity function.  This is
the standard CRC-32 (reflected polynomial `0xEDB88320`, initial value and final
complement `0xFFFFFFFF`).  The engine below takes its checksum as a parameter;
this function only instantiates it at concrete inputs. -/
def crc32 (data : Bytes) : Nat :=
  (data.foldl crc32_update 4294967295) ^^^ 4294967295

end utils

namespace storage

/-- The size of the packed `LogHeader`: four `uint32_t` fields. -/
def sizeof_LogHeader : Nat := 16

/-- Binary log entry header (stored on disk). -/
structure LogHeader where
  crc : Nat
  timestamp : Nat
  key_size : Nat
  value_size : Nat
  deriving DecidableEq, Repr

/-- The 16 bytes that `write(fd_, &header, sizeof(LogHeader))` sends. -/
def LogHeader.bytes (h : LogHeader) : Bytes :=
  u32_bytes h.crc ++ u32_bytes h.timestamp ++ u32_bytes h.key_size ++ u32_bytes h.value_size

/-- The header that `pread(fd_, &header, sizeof(LogHeader), offset)` leaves
when it has read the 16 bytes `b`. -/
def LogHeader.of_bytes (b : Bytes) : LogHeader :=
  { crc := u32_of_bytes b
    timestamp := u32_of_bytes (b.drop 4)
    key_size := u32_of_bytes (b.drop 8)
    value_size := u32_of_bytes (b.drop 12) }

/-- In-memory index entry (KeyDir). -/
structure KeyDirEntry where
  file_id : Nat
  value_size : Nat
  value_pos : Nat
  timestamp : Nat
  deriving DecidableEq, Repr

/-- The index `std::unordered_map<std::string, KeyDirEntry>`. -/
abbrev KeyDir := List (Bytes × KeyDirEntry)

/-- The lookup `key_dir_.find(key)`; `none` is `key_dir_.end()`. -/
def KeyDir.find (m : KeyDir) (key : Bytes) : Option KeyDirEntry :=
  match m with
  | [] => none
  | (k, e) :: rest => if k = key then some e else KeyDir.find rest key

/-- The removal `key_dir_.erase(key)`. -/
def KeyDir.erase (m : KeyDir) (key : Bytes) : KeyDir :=
  m.filter (fun p => decide (p.1 ≠ key))

/-- The assignment `key_dir_[key] = entry`: the entry for `key` is inserted, or
replaced when there is one. -/
def KeyDir.assign (m : KeyDir) (key : Bytes) (entry : KeyDirEntry) : KeyDir :=
  (key, entry) :: KeyDir.erase m key

/-- The side effects of the engine on its file and its index, in program order. -/
inductive Event where
  | write (buf : Bytes)
  | fsync
  | index_assign (key : Bytes)
  | index_erase (key : Bytes)
  | index_clear
  deriving DecidableEq, Repr

/-- The exceptions the engine throws. -/
inductive Error where
  | invalid_argument
  | runtime_error
  deriving DecidableEq, Repr

deriving instance DecidableEq for Except

/-- Main Bitcask storage engine: the object together with the file behind
`fd_`, the clock it reads and the effects it has had. -/
structure BitcaskStore where
  file : Bytes
  key_dir_ : KeyDir
  clock : Nat → Nat
  ticks : Nat
  trace : List Event

/-- The most bytes that one `write` system call transfers on Linux,
`0x7ffff000`: a call with a longer buffer writes this many bytes and returns
their number. -/
def MAX_RW_COUNT : Nat := 2147479552

/-- The system call `pread(fd_, buf, count, offset)`: the bytes it copies. Its
return value is their number. -/
def pread (file : Bytes) (count offset : Nat) : Bytes :=
  (file.drop offset).take count

/-- The contents of `std::string buf(count, 0)` after
`pread(fd_, buf.data(), count, offset)`: what was read, then the zeros the
read did not reach. -/
def pread_string (file : Bytes) (count offset : Nat) : Bytes :=
  pread file count offset ++ List.replicate (count - (pread file count offset).length) 0

namespace BitcaskStore

/-- The call `std::time(nullptr)`. -/
def time (s : BitcaskStore) : Nat × BitcaskStore :=
  (s.clock s.ticks, { s with ticks := s.ticks + 1 })

/-- The system call `write(fd_, buf, n)` on the `O_APPEND` descriptor: the
first `min n MAX_RW_COUNT` bytes of the buffer go to the end of the file; the
call returns their number. -/
def write (s : BitcaskStore) (buf : Bytes) : Nat × BitcaskStore :=
  let n := min buf.length MAX_RW_COUNT
  (n, { s with file := s.file ++ buf.take n, trace := s.trace ++ [Event.write (buf.take n)] })

/-- Force flush to disk (fsync): `fd_` is open for the whole life of the object. -/
def sync (s : BitcaskStore) : BitcaskStore :=
  { s with trace := s.trace ++ [Event.fsync] }

/-- Statistics: `key_dir_.size()`. -/
def key_count (s : BitcaskStore) : Nat := s.key_dir_.length

/-- The bytes the checksum is computed over: timestamp, sizes, key, value
(excluding the crc field itself). -/
def crc_data (header : LogHeader) (key value : Bytes) : Bytes :=
  u32_bytes header.timestamp ++ u32_bytes header.key_size ++ u32_bytes header.value_size
    ++ key ++ value

/-- The header that `append_entry` prepares for `key` and `value` when the
clock reads `now`. -/
def entry_header (crc32 : Bytes → Nat) (now : Nat) (key value : Bytes) : LogHeader :=
  let header0 : LogHeader :=
    { crc := 0, timestamp := u32 now, key_size := u32 key.length,
      value_size := u32 value.length }
  { header0 with crc := u32 (crc32 (crc_data header0 key value)) }

/-- The bytes of the record that `append_entry` writes for `key` and `value`
when the clock reads `now`: header, key, value. -/
def entry_bytes (crc32 : Bytes → Nat) (now : Nat) (key value : Bytes) : Bytes :=
  (entry_header crc32 now key value).bytes ++ key ++ value

/-- The helper `BitcaskStore::append_entry`: the offset of the record it
returns, or the `std::runtime_error` it throws when one of its three writes is
short, and the state it leaves. -/
def append_entry (crc32 : Bytes → Nat) (s : BitcaskStore) (key value : Bytes) :
    Except Error Nat × BitcaskStore :=
  let offset := s.file.length
  let (now, s1) := s.time
  let header0 : LogHeader :=
    { crc := 0, timestamp := u32 now, key_size := u32 key.length,
      value_size := u32 value.length }
  let header : LogHeader := { header0 with crc := u32 (crc32 (crc_data header0 key value)) }
  let (n1, s2) := s1.write header.bytes
  if n1 ≠ sizeof_LogHeader then (Except.error Error.runtime_error, s2)
  else
    let (n2, s3) := s2.write key
    if n2 ≠ key.length then (Except.error Error.runtime_error, s3)
    else
      let (n3, s4) := s3.write value
      if n3 ≠ value.length then (Except.error Error.runtime_error, s4)
      else (Except.ok offset, s4)

/-- The helper `BitcaskStore::read_value`. -/
def read_value (s : BitcaskStore) (offset size : Nat) : Option Bytes :=
  let value := pread_string s.file size offset
  let bytes_read := (pread s.file size offset).length
  if bytes_read ≠ size then none else some value

/-- The helper `BitcaskStore::verify_entry`; it does not use `offset`. -/
def verify_entry (crc32 : Bytes → Nat) (_offset : Nat) (header : LogHeader)
    (key value : Bytes) : Bool :=
  let computed_crc := u32 (crc32 (crc_data header key value))
  computed_crc == header.crc

/-- The operation `BitcaskStore::set`: the exception thrown, if any, and the
state the object is left in. -/
def set (crc32 : Bytes → Nat) (s : BitcaskStore) (key value : Bytes) :
    Except Error Unit × BitcaskStore :=
  if key = [] then (Except.error Error.invalid_argument, s)
  else
    match append_entry crc32 s key value with
    | (Except.error e, s1) => (Except.error e, s1)
    | (Except.ok offset, s1) =>
      let (now, s2) := s1.time
      let entry : KeyDirEntry :=
        { file_id := 0, value_size := u32 value.length,
          value_pos := offset + sizeof_LogHeader + key.length, timestamp := u32 now }
      let s3 : BitcaskStore :=
        { s2 with key_dir_ := s2.key_dir_.assign key entry,
                  trace := s2.trace ++ [Event.index_assign key] }
      (Except.ok (), s3.sync)

/-- The operation `BitcaskStore::get`. -/
def get (s : BitcaskStore) (key : Bytes) : Option Bytes :=
  match s.key_dir_.find key with
  | none => none
  | some entry => s.read_value entry.value_pos entry.value_size

/-- The operation `BitcaskStore::del`: the exception thrown, if any, and the
state the object is left in. -/
def del (crc32 : Bytes → Nat) (s : BitcaskStore) (key : Bytes) :
    Except Error Unit × BitcaskStore :=
  let s1 : BitcaskStore :=
    { s with key_dir_ := s.key_dir_.erase key, trace := s.trace ++ [Event.index_erase key] }
  match append_entry crc32 s1 key [] with
  | (Except.error e, s2) => (Except.error e, s2)
  | (Except.ok _, s2) => (Except.ok (), s2.sync)

/-- The `while (offset < file_size)` loop of `BitcaskStore::recover`.  Every
turn that does not `break` moves `offset` forward by at least 16, so
`file_size - offset` turns always suffice; `fuel` bounds the number of turns
(see `recover_loop_fuel`). -/
def recover_loop (crc32 : Bytes → Nat) (file_size : Nat) :
    Nat → Nat → BitcaskStore → BitcaskStore
  | 0, _, s => s
  | fuel + 1, offset, s =>
    if offset < file_size then
      let header_bytes := pread s.file sizeof_LogHeader offset
      if header_bytes.length ≠ sizeof_LogHeader then s
      else
        let header := LogHeader.of_bytes header_bytes
        let key := pread_string s.file header.key_size (offset + sizeof_LogHeader)
        let value :=
          pread_string s.file header.value_size (offset + sizeof_LogHeader + header.key_size)
        if !verify_entry crc32 offset header key value then s
        else
          let s1 : BitcaskStore :=
            if header.value_size > 0 then
              let entry : KeyDirEntry :=
                { file_id := 0, value_size := header.value_size,
                  value_pos := offset + sizeof_LogHeader + header.key_size,
                  timestamp := header.timestamp }
              { s with key_dir_ := s.key_dir_.assign key entry,
                       trace := s.trace ++ [Event.index_assign key] }
            else
              { s with key_dir_ := s.key_dir_.erase key,
                       trace := s.trace ++ [Event.index_erase key] }
          recover_loop crc32 file_size fuel
            (offset + (sizeof_LogHeader + header.key_size + header.value_size)) s1
    else s

/-- The operation `BitcaskStore::recover`: rebuild the index from the log file. -/
def recover (crc32 : Bytes → Nat) (s : BitcaskStore) : BitcaskStore :=
  let s0 : BitcaskStore := { s with key_dir_ := [], trace := s.trace ++ [Event.index_clear] }
  let file_size := s0.file.length
  if file_size = 0 then s0
  else recover_loop crc32 file_size file_size 0 s0

end BitcaskStore

/-- The constructor `BitcaskStore::BitcaskStore`: open the data file, whose
contents are `file`, and rebuild the index from it. -/
def open_store (crc32 : Bytes → Nat) (file : Bytes) (clock : Nat → Nat) : BitcaskStore :=
  BitcaskStore.recover crc32
    { file := file, key_dir_ := [], clock := clock, ticks := 0, trace := [] }

/-- The destructor `BitcaskStore::~BitcaskStore`: a last flush; what remains
of the object is the file. -/
def close (s : BitcaskStore) : Bytes := s.sync.file

/-- Closing the store and constructing a new one on the same file. -/
def reopen (crc32 : Bytes → Nat) (s : BitcaskStore) : BitcaskStore :=
  open_store crc32 (close s) (fun n => s.clock (s.ticks + n))

/-- A mutating call of the engine interface. -/
inductive Op where
  | set (key value : Bytes)
  | del (key : Bytes)
  deriving DecidableEq, Repr

/-- The key an operation is about. -/
def Op.key : Op → Bytes
  | Op.set key _ => key
  | Op.del key => key

/-- The state after one call; a call that throws leaves the state it threw in. -/
def Op.apply (crc32 : Bytes → Nat) (s : BitcaskStore) : Op → BitcaskStore
  | Op.set key value => (s.set crc32 key value).2
  | Op.del key => (s.del crc32 key).2

/-- The state after a sequence of calls, first to last. -/
def run (crc32 : Bytes → Nat) (s : BitcaskStore) (ops : List Op) : BitcaskStore :=
  ops.foldl (Op.apply crc32) s

/-- How one call ends: normally, or with the exception it throws. -/
def Op.result (crc32 : Bytes → Nat) (s : BitcaskStore) : Op → Except Error Unit
  | Op.set key value => (s.set crc32 key value).1
  | Op.del key => (s.del crc32 key).1

/-- Every call of the sequence returns normally: none throws. -/
def run_completes (crc32 : Bytes → Nat) (s : BitcaskStore) : List Op → Prop
  | [] => True
  | op :: ops => op.result crc32 s = Except.ok () ∧ run_completes crc32 (op.apply crc32 s) ops

instance decidable_run_completes (crc32 : Bytes → Nat) :
    ∀ (ops : List Op) (s : BitcaskStore), Decidable (run_completes crc32 s ops)
  | [], _ => isTrue trivial
  | op :: ops, s =>
    have := decidable_run_completes crc32 ops (op.apply crc32 s)
    inferInstanceAs (Decidable
      (op.result crc32 s = Except.ok () ∧ run_completes crc32 (op.apply crc32 s) ops))

/-- The calls that the engine carries out to the end (see
`run_completes_iff`): the key of a `set` is not empty, and the key and the
value each go out in one `write`, neither being longer than `MAX_RW_COUNT`
bytes. -/
def Op.goes_through : Op → Prop
  | Op.set key value =>
    key ≠ [] ∧ key.length ≤ MAX_RW_COUNT ∧ value.length ≤ MAX_RW_COUNT
  | Op.del key => key.length ≤ MAX_RW_COUNT

instance (op : Op) : Decidable op.goes_through := by
  cases op <;> unfold Op.goes_through <;> infer_instance

/-- The most recent operation of the sequence that is about `key`, if any. -/
def last_op (ops : List Op) (key : Bytes) : Option Op :=
  ops.reverse.find? (fun op => decide (op.key = key))

/-- Whether the most recent operation of the sequence about `key` is a `set`. -/
def last_op_is_set (ops : List Op) (key : Bytes) : Bool :=
  match last_op ops key with
  | some (Op.set _ _) => true
  | _ => false

/-- The count the contract promises for `key_count()`, in the words of the
spec: the number of distinct keys whose most recent operation in the sequence
is a `set`. -/
def spec_key_count (ops : List Op) : Nat :=
  (((ops.map Op.key).dedup).filter (last_op_is_set ops)).length

/-- The calls of `test_basic_operations` that change the store. -/
def test_basic_operations : List Op :=
  [Op.set (str "hello") (str "world"), Op.set (str "foo") (str "bar"),
   Op.set (str "key123") (str "value456"), Op.del (str "foo")]

/-- A record of the log, as the arguments it was appended with: the clock
reading, the key and the value. -/
structure LogRecord where
  now : Nat
  key : Bytes
  value : Bytes
  deriving DecidableEq, Repr

/-- The bytes of a record in the file. -/
def LogRecord.bytes (crc32 : Bytes → Nat) (r : LogRecord) : Bytes :=
  BitcaskStore.entry_bytes crc32 r.now r.key r.value

/-- The number of bytes of a record in the file: header, key, value. -/
def LogRecord.size (r : LogRecord) : Nat :=
  sizeof_LogHeader + r.key.length + r.value.length

/-- A record is well formed when the lengths of its key and of its value fit
the 32-bit fields of the header. -/
def LogRecord.well_formed (r : LogRecord) : Prop :=
  r.key.length < 4294967296 ∧ r.value.length < 4294967296

instance (r : LogRecord) : Decidable r.well_formed := by
  unfold LogRecord.well_formed; infer_instance

/-- The bytes of a log made of the given records, first to last. -/
def log_bytes (crc32 : Bytes → Nat) (rs : List LogRecord) : Bytes :=
  (rs.map (LogRecord.bytes crc32)).flatten

/-- The index update of `recover` for one verified record found at `offset`:
a non-empty value adds or updates the key, an empty value is a tombstone. -/
def index_step (m : KeyDir) (offset : Nat) (r : LogRecord) : KeyDir :=
  if r.value.length > 0 then
    m.assign r.key
      { file_id := 0, value_size := r.value.length,
        value_pos := offset + sizeof_LogHeader + r.key.length, timestamp := u32 r.now }
  else m.erase r.key

/-- The index after folding the records, in file order, into the index `m`,
the first record being at `offset`. -/
def replay_index (m : KeyDir) (offset : Nat) : List LogRecord → KeyDir
  | [] => m
  | r :: rs => replay_index (index_step m offset r) (offset + r.size) rs

/-- The index events of replaying the records. -/
def replay_trace (rs : List LogRecord) : List Event :=
  rs.map (fun r => if r.value.length > 0 then Event.index_assign r.key
    else Event.index_erase r.key)

/-- Where the index says the value of each key lies: key, offset of the value
in the file, length of the value. This is all of the index that `get` reads. -/
def KeyDir.locations (m : KeyDir) : List (Bytes × Nat × Nat) :=
  m.map (fun p => (p.1, p.2.value_pos, p.2.value_size))

/-- The calls which `recover` replays as they were made: the key and the
value each go out in one `write`, and the value of a `set` is non-empty. -/
def Op.replayable : Op → Prop
  | Op.set key value =>
    key.length ≤ MAX_RW_COUNT ∧ 0 < value.length ∧ value.length ≤ MAX_RW_COUNT
  | Op.del key => key.length ≤ MAX_RW_COUNT

instance (op : Op) : Decidable op.replayable := by
  cases op <;> unfold Op.replayable <;> infer_instance

/-- The clock of the examples: 1,700,000,000 at the first reading, one second
more at each further reading. -/
def test_clock (n : Nat) : Nat := 1700000000 + n

/-- The file left when the last byte of the record of `set("a", "\0")` did not
reach the disk, behind the complete record of `set("k1", "v1")`. -/
def truncated_log : Bytes :=
  log_bytes utils.crc32 [⟨test_clock 0, str "k1", str "v1"⟩]
    ++ (BitcaskStore.entry_bytes utils.crc32 (test_clock 2) (str "a") [0]).dropLast

/-- A store whose file was cut to 20 bytes behind the back of the engine,
after `set("k", "value")` on an empty file. -/
def truncated_store : BitcaskStore :=
  { ((open_store utils.crc32 [] test_clock).set utils.crc32 (str "k") (str "value")).2 with
    file := (((open_store utils.crc32 [] test_clock).set utils.crc32 (str "k")
      (str "value")).2.file).take 20 }

/-- The file left by a crash in the middle of an append: behind the complete
record of `set("foo", "old")`, the record of `set("foo", "new")` stops after
its header and two bytes of its key. -/
def torn_log : Bytes :=
  log_bytes utils.crc32 [⟨test_clock 0, str "foo", str "old"⟩]
    ++ (BitcaskStore.entry_bytes utils.crc32 (test_clock 2) (str "foo") (str "new")).take 18

/-- The file with one bit flipped: bit `i % 8` of the byte at index `i / 8`. -/
def flip_bit : Bytes → Nat → Bytes
  | [], _ => []
  | b :: rest, i =>
    if i < 8 then byte_of (b.val ^^^ 2 ^ i) :: rest else b :: flip_bit rest (i - 8)

/-- The check that the loop of `recover` makes on what it reads at `offset`:
`verify_entry` on the header found there and on the key and value buffers
filled from behind it. -/
def verifies_at (crc32 : Bytes → Nat) (file : Bytes) (offset : Nat) : Bool :=
  BitcaskStore.verify_entry crc32 offset
    (LogHeader.of_bytes (pread file sizeof_LogHeader offset))
    (pread_string file (LogHeader.of_bytes (pread file sizeof_LogHeader offset)).key_size
      (offset + sizeof_LogHeader))
    (pread_string file (LogHeader.of_bytes (pread file sizeof_LogHeader offset)).value_size
      (offset + sizeof_LogHeader
        + (LogHeader.of_bytes (pread file sizeof_LogHeader offset)).key_size))

/-- The log of `set("foo", "bar")` made at 1,309,589,486 seconds since the
epoch, alone in its file. -/
def foo_bar_log : Bytes :=
  log_bytes utils.crc32 [⟨1309589486, str "foo", str "bar"⟩]

/-- A checksum detects the change of one byte: two inputs that differ in exactly
one byte have different 32-bit checksums. -/
def detects_byte_change (crc32 : Bytes → Nat) : Prop :=
  ∀ (pre : Bytes) (a b : Byte) (post : Bytes), a ≠ b →
    u32 (crc32 (pre ++ a :: post)) ≠ u32 (crc32 (pre ++ b :: post))

/-- The record of `set("k1", "v1")` made when the example clock starts. -/
def record_k1 : LogRecord := ⟨test_clock 0, str "k1", str "v1"⟩

/-- The record of `set("foo", "bar")` made at 1,309,589,486 seconds since the
epoch. -/
def record_foo : LogRecord := ⟨1309589486, str "foo", str "bar"⟩

/-- The four bytes of a 32-bit integer in little-endian order, in the words of
the spec: byte `i` holds bits `8 i` to `8 i + 7`. -/
def spec_le32 (n : Nat) : Bytes :=
  (List.range 4).map (fun i => byte_of (n / 256 ^ i))

/-- The layout of a log record, in the words of the spec: checksum, timestamp,
key length, value length, each a 4-byte little-endian integer, then the key
bytes and the value bytes; the checksum is computed over everything behind the
checksum field, in that order. -/
def spec_record_layout (checksum : Bytes → Nat) (t : Nat) (key value : Bytes) : Bytes :=
  spec_le32 (checksum (spec_le32 t ++ spec_le32 key.length ++ spec_le32 value.length
      ++ key ++ value))
    ++ spec_le32 t ++ spec_le32 key.length ++ spec_le32 value.length ++ key ++ value

/-- The records of a log with the offsets they lie at, the first at `offset`. -/
def records_at (offset : Nat) : List LogRecord → List (Nat × LogRecord)
  | [] => []
  | r :: rs => (offset, r) :: records_at (offset + r.size) rs

/-- The most recently appended record for `key` in a log made of the records
`rs`, with the offset it lies at. -/
def last_record (rs : List LogRecord) (key : Bytes) : Option (Nat × LogRecord) :=
  (records_at 0 rs).reverse.find? (fun p => decide (p.2.key = key))

/-- The index entry that replaying a record found at `offset` leaves for its
key: none for a tombstone. -/
def replayed_entry (offset : Nat) (r : LogRecord) : Option KeyDirEntry :=
  if r.value.length > 0 then
    some { file_id := 0, value_size := r.value.length,
           value_pos := offset + sizeof_LogHeader + r.key.length, timestamp := u32 r.now }
  else none

/-- The `while (offset < file_size)` loop of `BitcaskStore::recover` once more,
now telling how it ended: `none` when the fuel ran out while the loop
condition still held, otherwise the state the loop ended in together with the
number of turns it made (a turn that ends in `break` counts). -/
def recover_loop_turns (crc32 : Bytes → Nat) (file_size : Nat) :
    Nat → Nat → BitcaskStore → Option (BitcaskStore × Nat)
  | 0, offset, s => if offset < file_size then none else some (s, 0)
  | fuel + 1, offset, s =>
    if offset < file_size then
      let header_bytes := pread s.file sizeof_LogHeader offset
      if header_bytes.length ≠ sizeof_LogHeader then some (s, 1)
      else
        let header := LogHeader.of_bytes header_bytes
        let key := pread_string s.file header.key_size (offset + sizeof_LogHeader)
        let value :=
          pread_string s.file header.value_size (offset + sizeof_LogHeader + header.key_size)
        if !BitcaskStore.verify_entry crc32 offset header key value then some (s, 1)
        else
          let s1 : BitcaskStore :=
            if header.value_size > 0 then
              let entry : KeyDirEntry :=
                { file_id := 0, value_size := header.value_size,
                  value_pos := offset + sizeof_LogHeader + header.key_size,
                  timestamp := header.timestamp }
              { s with key_dir_ := s.key_dir_.assign key entry,
                       trace := s.trace ++ [Event.index_assign key] }
            else
              { s with key_dir_ := s.key_dir_.erase key,
                       trace := s.trace ++ [Event.index_erase key] }
          (recover_loop_turns crc32 file_size fuel
            (offset + (sizeof_LogHeader + header.key_size + header.value_size)) s1).map
            (fun p => (p.1, p.2 + 1))
    else some (s, 0)

/-- A step in the life of a store: a mutating call, or closing the store and
reopening it on the same file. -/
inductive Call where
  | set (key value : Bytes)
  | del (key : Bytes)
  | reopen
  deriving DecidableEq, Repr

/-- The state after one step; a call that throws leaves the state it threw in. -/
def Call.apply (crc32 : Bytes → Nat) (s : BitcaskStore) : Call → BitcaskStore
  | Call.set key value => (s.set crc32 key value).2
  | Call.del key => (s.del crc32 key).2
  | Call.reopen => granite.storage.reopen crc32 s

/-- The state after a sequence of steps, first to last. -/
def run_calls (crc32 : Bytes → Nat) (s : BitcaskStore) (calls : List Call) : BitcaskStore :=
  calls.foldl (Call.apply crc32) s

/-- How one step ends: normally, or with the exception it throws. -/
def Call.result (crc32 : Bytes → Nat) (s : BitcaskStore) : Call → Except Error Unit
  | Call.set key value => (s.set crc32 key value).1
  | Call.del key => (s.del crc32 key).1
  | Call.reopen => Except.ok ()

/-- Every step of the sequence returns normally: none throws. -/
def run_calls_completes (crc32 : Bytes → Nat) (s : BitcaskStore) : List Call → Prop
  | [] => True
  | c :: calls =>
    c.result crc32 s = Except.ok () ∧ run_calls_completes crc32 (c.apply crc32 s) calls

instance decidable_run_calls_completes (crc32 : Bytes → Nat) :
    ∀ (calls : List Call) (s : BitcaskStore), Decidable (run_calls_completes crc32 s calls)
  | [], _ => isTrue trivial
  | c :: calls, s =>
    have := decidable_run_calls_completes crc32 calls (c.apply crc32 s)
    inferInstanceAs (Decidable
      (c.result crc32 s = Except.ok () ∧ run_calls_completes crc32 (c.apply crc32 s) calls))

/-- The steps that the engine carries out to the end (see
`run_calls_completes_iff`): the key of a `set` is not empty, and the key and
the value each go out in one `write`, neither being longer than `MAX_RW_COUNT`
bytes. -/
def Call.goes_through : Call → Prop
  | Call.set key value =>
    key ≠ [] ∧ key.length ≤ MAX_RW_COUNT ∧ value.length ≤ MAX_RW_COUNT
  | Call.del key => key.length ≤ MAX_RW_COUNT
  | Call.reopen => True

instance (c : Call) : Decidable c.goes_through := by
  cases c <;> unfold Call.goes_through <;> infer_instance

/-- The steps that do not set an empty value. -/
def Call.sets_no_empty_value : Call → Prop
  | Call.set _ value => value ≠ []
  | Call.del _ => True
  | Call.reopen => True

instance (c : Call) : Decidable c.sets_no_empty_value := by
  cases c <;> unfold Call.sets_no_empty_value <;> infer_instance

/-- Every entry of the index points at the value of the most recent record of
its key in the log made of the records `rs`; with `strict`, that record
moreover is no tombstone. -/
def KeyDir.points_at_last (strict : Prop) (m : KeyDir) (rs : List LogRecord) : Prop :=
  ∀ key entry, m.find key = some entry →
    ∃ o r, last_record rs key = some (o, r)
      ∧ entry.value_pos = o + sizeof_LogHeader + key.length
      ∧ entry.value_size = r.value.length
      ∧ (strict → r.value ≠ [])

/-- A life of a store with overwrites, a deletion and a reopening. -/
def test_calls : List Call :=
  [Call.set (str "foo") (str "bar"), Call.set (str "k1") (str "v1"), Call.del (str "k1"),
   Call.reopen, Call.set (str "foo") (str "baz"), Call.set (str "k2") (str "v2")]

end storage

/-! ## Lemmas on the encoding of integers -/

theorem byte_of_val (n : Nat) : (byte_of n).val = n % 256 := rfl

theorem u32_lt (n : Nat) : u32 n < 4294967296 := by
  unfold u32; omega

theorem u32_of_lt {n : Nat} (h : n < 4294967296) : u32 n = n := by
  unfold u32; omega

theorem u32_u32 (n : Nat) : u32 (u32 n) = u32 n := by
  unfold u32; omega

theorem length_u32_bytes (n : Nat) : (u32_bytes n).length = 4 := rfl

theorem u32_of_bytes_u32_bytes (n : Nat) (rest : Bytes) :
    u32_of_bytes (u32_bytes n ++ rest) = u32 n := by
  simp only [u32_of_bytes, u32_bytes, u32, List.cons_append, List.nil_append, List.getD_cons_zero,
    List.getD_cons_succ, byte_of_val]
  omega

namespace storage

/-! ## Lemmas on the file, the index and the operations -/

theorem pread_append (pre rest : Bytes) (count : Nat) :
    pread (pre ++ rest) count pre.length = rest.take count := by
  simp [pread]

theorem pread_append_add (pre rest : Bytes) (count i : Nat) :
    pread (pre ++ rest) count (pre.length + i) = (rest.drop i).take count := by
  simp [pread]

theorem LogHeader.length_header_bytes (h : LogHeader) : h.bytes.length = 16 := rfl

theorem LogHeader.of_bytes_bytes (h : LogHeader) (rest : Bytes) :
    LogHeader.of_bytes (h.bytes ++ rest)
      = { crc := u32 h.crc, timestamp := u32 h.timestamp, key_size := u32 h.key_size,
          value_size := u32 h.value_size } := by
  have e0 : h.bytes ++ rest = u32_bytes h.crc ++ (u32_bytes h.timestamp ++
      (u32_bytes h.key_size ++ (u32_bytes h.value_size ++ rest))) := by
    simp [LogHeader.bytes]
  have e4 : (h.bytes ++ rest).drop 4 = u32_bytes h.timestamp ++
      (u32_bytes h.key_size ++ (u32_bytes h.value_size ++ rest)) := by
    rw [e0]; rfl
  have e8 : (h.bytes ++ rest).drop 8
      = u32_bytes h.key_size ++ (u32_bytes h.value_size ++ rest) := by
    rw [e0]; rfl
  have e12 : (h.bytes ++ rest).drop 12 = u32_bytes h.value_size ++ rest := by
    rw [e0]; rfl
  simp only [LogHeader.of_bytes, e4, e8, e12]
  rw [e0]
  simp only [u32_of_bytes_u32_bytes]

theorem KeyDir.find_cons (k : Bytes) (e : KeyDirEntry) (rest : KeyDir) (key : Bytes) :
    KeyDir.find ((k, e) :: rest) key = if k = key then some e else KeyDir.find rest key := rfl

theorem KeyDir.erase_nil (key : Bytes) : KeyDir.erase [] key = [] := rfl

theorem KeyDir.erase_cons_self (key : Bytes) (e : KeyDirEntry) (rest : KeyDir) :
    KeyDir.erase ((key, e) :: rest) key = KeyDir.erase rest key := by
  simp [KeyDir.erase]

theorem KeyDir.erase_cons_ne {k key : Bytes} (e : KeyDirEntry) (rest : KeyDir) (h : k ≠ key) :
    KeyDir.erase ((k, e) :: rest) key = (k, e) :: KeyDir.erase rest key := by
  simp [KeyDir.erase, h]

theorem KeyDir.find_erase_self (m : KeyDir) (key : Bytes) :
    KeyDir.find (KeyDir.erase m key) key = none := by
  induction m with
  | nil => rfl
  | cons p rest ih =>
    obtain ⟨k, e⟩ := p
    by_cases h : k = key
    · rw [h, KeyDir.erase_cons_self]; exact ih
    · rw [KeyDir.erase_cons_ne e rest h, KeyDir.find_cons, if_neg h]; exact ih

theorem KeyDir.find_erase_ne (m : KeyDir) {key other : Bytes} (h : other ≠ key) :
    KeyDir.find (KeyDir.erase m key) other = KeyDir.find m other := by
  induction m with
  | nil => rfl
  | cons p rest ih =>
    obtain ⟨k, e⟩ := p
    by_cases hk : k = key
    · have hko : k ≠ other := by rw [hk]; exact fun h' => h h'.symm
      rw [hk, KeyDir.erase_cons_self, KeyDir.find_cons, if_neg (hk ▸ hko)]; exact ih
    · rw [KeyDir.erase_cons_ne e rest hk, KeyDir.find_cons, KeyDir.find_cons, ih]

theorem KeyDir.find_assign_self (m : KeyDir) (key : Bytes) (entry : KeyDirEntry) :
    KeyDir.find (KeyDir.assign m key entry) key = some entry := by
  simp [KeyDir.assign, KeyDir.find_cons]

theorem KeyDir.find_assign_ne (m : KeyDir) {key other : Bytes} (entry : KeyDirEntry)
    (h : other ≠ key) :
    KeyDir.find (KeyDir.assign m key entry) other = KeyDir.find m other := by
  have hko : key ≠ other := fun h' => h h'.symm
  rw [KeyDir.assign, KeyDir.find_cons, if_neg hko, KeyDir.find_erase_ne m h]

theorem KeyDir.erase_of_find_none (m : KeyDir) (key : Bytes) (h : KeyDir.find m key = none) :
    KeyDir.erase m key = m := by
  induction m with
  | nil => rfl
  | cons p rest ih =>
    obtain ⟨k, e⟩ := p
    by_cases hk : k = key
    · rw [KeyDir.find_cons, if_pos hk] at h; cases h
    · rw [KeyDir.find_cons, if_neg hk] at h
      rw [KeyDir.erase_cons_ne e rest hk, ih h]

namespace BitcaskStore

theorem MAX_RW_COUNT_lt : MAX_RW_COUNT < 4294967296 := by decide

theorem write_eq (s : BitcaskStore) (buf : Bytes) (h : buf.length ≤ MAX_RW_COUNT) :
    s.write buf
      = (buf.length,
          { file := s.file ++ buf, key_dir_ := s.key_dir_, clock := s.clock, ticks := s.ticks,
            trace := s.trace ++ [Event.write buf] }) := by
  simp only [write, Nat.min_eq_left h, List.take_length]

theorem write_short (s : BitcaskStore) (buf : Bytes) (h : MAX_RW_COUNT < buf.length) :
    s.write buf
      = (MAX_RW_COUNT,
          { file := s.file ++ buf.take MAX_RW_COUNT, key_dir_ := s.key_dir_, clock := s.clock,
            ticks := s.ticks, trace := s.trace ++ [Event.write (buf.take MAX_RW_COUNT)] }) := by
  simp only [write, Nat.min_eq_right (Nat.le_of_lt h)]

/-- What `append_entry` does when the key and the value each go out in one
`write`: it returns the previous size of the file, and the record is in the
file. -/
theorem append_entry_eq (crc32 : Bytes → Nat) (s : BitcaskStore) (key value : Bytes)
    (hk : key.length ≤ MAX_RW_COUNT) (hv : value.length ≤ MAX_RW_COUNT) :
    append_entry crc32 s key value
      = (Except.ok s.file.length,
          { file := s.file ++ entry_bytes crc32 (s.clock s.ticks) key value
            key_dir_ := s.key_dir_
            clock := s.clock
            ticks := s.ticks + 1
            trace := s.trace ++ [Event.write (entry_header crc32 (s.clock s.ticks) key value).bytes,
              Event.write key, Event.write value] }) := by
  have h16 : 16 ≤ MAX_RW_COUNT := by decide
  simp [append_entry, entry_bytes, entry_header, time, write_eq, h16, hk, hv,
    LogHeader.length_header_bytes, sizeof_LogHeader]

/-- What `append_entry` does when the key is longer than one `write` takes: the
header and the first `MAX_RW_COUNT` bytes of the key are in the file, and it
throws. -/
theorem append_entry_key_short (crc32 : Bytes → Nat) (s : BitcaskStore) (key value : Bytes)
    (hk : MAX_RW_COUNT < key.length) :
    append_entry crc32 s key value
      = (Except.error Error.runtime_error,
          { file := s.file ++ (entry_header crc32 (s.clock s.ticks) key value).bytes
              ++ key.take MAX_RW_COUNT
            key_dir_ := s.key_dir_
            clock := s.clock
            ticks := s.ticks + 1
            trace := s.trace ++ [Event.write (entry_header crc32 (s.clock s.ticks) key value).bytes,
              Event.write (key.take MAX_RW_COUNT)] }) := by
  have h16 : 16 ≤ MAX_RW_COUNT := by decide
  have hne : MAX_RW_COUNT ≠ key.length := Nat.ne_of_lt hk
  simp [append_entry, entry_header, time, write_eq, write_short, h16, hk, hne,
    LogHeader.length_header_bytes, sizeof_LogHeader]

/-- What `append_entry` does when the value is longer than one `write` takes:
the header, the key and the first `MAX_RW_COUNT` bytes of the value are in the
file, and it throws. -/
theorem append_entry_value_short (crc32 : Bytes → Nat) (s : BitcaskStore) (key value : Bytes)
    (hk : key.length ≤ MAX_RW_COUNT) (hv : MAX_RW_COUNT < value.length) :
    append_entry crc32 s key value
      = (Except.error Error.runtime_error,
          { file := s.file ++ (entry_header crc32 (s.clock s.ticks) key value).bytes
              ++ key ++ value.take MAX_RW_COUNT
            key_dir_ := s.key_dir_
            clock := s.clock
            ticks := s.ticks + 1
            trace := s.trace ++ [Event.write (entry_header crc32 (s.clock s.ticks) key value).bytes,
              Event.write key, Event.write (value.take MAX_RW_COUNT)] }) := by
  have h16 : 16 ≤ MAX_RW_COUNT := by decide
  have hne : MAX_RW_COUNT ≠ value.length := Nat.ne_of_lt hv
  simp [append_entry, entry_header, time, write_eq, write_short, h16, hk, hv, hne,
    LogHeader.length_header_bytes, sizeof_LogHeader]

end BitcaskStore

theorem KeyDir.erase_erase (m : KeyDir) (key : Bytes) :
    KeyDir.erase (KeyDir.erase m key) key = KeyDir.erase m key := by
  simp [KeyDir.erase, List.filter_filter]

theorem KeyDir.assign_assign (m : KeyDir) (key : Bytes) (e1 e2 : KeyDirEntry) :
    KeyDir.assign (KeyDir.assign m key e1) key e2 = KeyDir.assign m key e2 := by
  simp only [KeyDir.assign, KeyDir.erase_cons_self, KeyDir.erase_erase]

theorem KeyDir.length_assign_of_find_none (m : KeyDir) (key : Bytes) (entry : KeyDirEntry)
    (h : KeyDir.find m key = none) : (KeyDir.assign m key entry).length = m.length + 1 := by
  simp only [KeyDir.assign, KeyDir.erase_of_find_none m key h, List.length_cons]

namespace BitcaskStore

/-- What `set` does when the key is not empty and the key and the value each
go out in one `write`. -/
theorem set_eq (crc32 : Bytes → Nat) (s : BitcaskStore) (key value : Bytes) (hk : key ≠ [])
    (hkl : key.length ≤ MAX_RW_COUNT) (hvl : value.length ≤ MAX_RW_COUNT) :
    s.set crc32 key value
      = (Except.ok (),
          { file := s.file ++ entry_bytes crc32 (s.clock s.ticks) key value
            key_dir_ := s.key_dir_.assign key
              { file_id := 0, value_size := u32 value.length,
                value_pos := s.file.length + sizeof_LogHeader + key.length,
                timestamp := u32 (s.clock (s.ticks + 1)) }
            clock := s.clock
            ticks := s.ticks + 2
            trace := s.trace ++ [Event.write (entry_header crc32 (s.clock s.ticks) key value).bytes,
              Event.write key, Event.write value, Event.index_assign key, Event.fsync] }) := by
  simp [set, hk, append_entry_eq crc32 s key value hkl hvl, time, sync]

/-- What `set` does when the key is longer than one `write` takes: it throws
what `append_entry` throws, the index is as it was, and nothing is flushed. -/
theorem set_key_short (crc32 : Bytes → Nat) (s : BitcaskStore) (key value : Bytes)
    (hkl : MAX_RW_COUNT < key.length) :
    s.set crc32 key value
      = (Except.error Error.runtime_error,
          { file := s.file ++ (entry_header crc32 (s.clock s.ticks) key value).bytes
              ++ key.take MAX_RW_COUNT
            key_dir_ := s.key_dir_
            clock := s.clock
            ticks := s.ticks + 1
            trace := s.trace ++ [Event.write (entry_header crc32 (s.clock s.ticks) key value).bytes,
              Event.write (key.take MAX_RW_COUNT)] }) := by
  have hk : key ≠ [] := by
    intro h
    rw [h] at hkl
    exact Nat.not_lt_zero _ hkl
  simp [set, hk, append_entry_key_short crc32 s key value hkl]

/-- What `set` does when the value is longer than one `write` takes: it throws
what `append_entry` throws, the index is as it was, and nothing is flushed. -/
theorem set_value_short (crc32 : Bytes → Nat) (s : BitcaskStore) (key value : Bytes)
    (hk : key ≠ []) (hkl : key.length ≤ MAX_RW_COUNT) (hvl : MAX_RW_COUNT < value.length) :
    s.set crc32 key value
      = (Except.error Error.runtime_error,
          { file := s.file ++ (entry_header crc32 (s.clock s.ticks) key value).bytes
              ++ key ++ value.take MAX_RW_COUNT
            key_dir_ := s.key_dir_
            clock := s.clock
            ticks := s.ticks + 1
            trace := s.trace ++ [Event.write (entry_header crc32 (s.clock s.ticks) key value).bytes,
              Event.write key, Event.write (value.take MAX_RW_COUNT)] }) := by
  simp [set, hk, append_entry_value_short crc32 s key value hkl hvl]

/-- When `set` returns normally: exactly when the key is not empty and the key
and the value each go out in one `write`. -/
theorem set_ok_iff (crc32 : Bytes → Nat) (s : BitcaskStore) (key value : Bytes) :
    (s.set crc32 key value).1 = Except.ok ()
      ↔ key ≠ [] ∧ key.length ≤ MAX_RW_COUNT ∧ value.length ≤ MAX_RW_COUNT := by
  by_cases hk : key = []
  · subst hk
    simp [set]
  · by_cases hkl : key.length ≤ MAX_RW_COUNT
    · by_cases hvl : value.length ≤ MAX_RW_COUNT
      · rw [set_eq crc32 s key value hk hkl hvl]
        exact ⟨fun _ => ⟨hk, hkl, hvl⟩, fun _ => rfl⟩
      · rw [set_value_short crc32 s key value hk hkl (Nat.lt_of_not_le hvl)]
        exact ⟨(fun h => by cases h), fun h => absurd h.2.2 hvl⟩
    · rw [set_key_short crc32 s key value (Nat.lt_of_not_le hkl)]
      exact ⟨(fun h => by cases h), fun h => absurd h.2.1 hkl⟩

theorem set_empty_key (crc32 : Bytes → Nat) (s : BitcaskStore) (value : Bytes) :
    s.set crc32 [] value = (Except.error Error.invalid_argument, s) := by
  simp [set]

/-- What `del` does when the key goes out in one `write`. -/
theorem del_eq (crc32 : Bytes → Nat) (s : BitcaskStore) (key : Bytes)
    (hkl : key.length ≤ MAX_RW_COUNT) :
    s.del crc32 key
      = (Except.ok (),
          { file := s.file ++ entry_bytes crc32 (s.clock s.ticks) key []
            key_dir_ := s.key_dir_.erase key
            clock := s.clock
            ticks := s.ticks + 1
            trace := s.trace ++ [Event.index_erase key,
              Event.write (entry_header crc32 (s.clock s.ticks) key []).bytes,
              Event.write key, Event.write [], Event.fsync] }) := by
  simp [del, append_entry_eq crc32 _ key [] hkl (Nat.zero_le _), sync]

/-- What `del` does when the key is longer than one `write` takes: the key is
out of the index, the header and the first `MAX_RW_COUNT` bytes of the key are
in the file, nothing is flushed, and it throws what `append_entry` throws. -/
theorem del_key_short (crc32 : Bytes → Nat) (s : BitcaskStore) (key : Bytes)
    (hkl : MAX_RW_COUNT < key.length) :
    s.del crc32 key
      = (Except.error Error.runtime_error,
          { file := s.file ++ (entry_header crc32 (s.clock s.ticks) key []).bytes
              ++ key.take MAX_RW_COUNT
            key_dir_ := s.key_dir_.erase key
            clock := s.clock
            ticks := s.ticks + 1
            trace := s.trace ++ [Event.index_erase key,
              Event.write (entry_header crc32 (s.clock s.ticks) key []).bytes,
              Event.write (key.take MAX_RW_COUNT)] }) := by
  simp [del, append_entry_key_short crc32 _ key [] hkl]

/-- When `del` returns normally: exactly when the key goes out in one `write`. -/
theorem del_ok_iff (crc32 : Bytes → Nat) (s : BitcaskStore) (key : Bytes) :
    (s.del crc32 key).1 = Except.ok () ↔ key.length ≤ MAX_RW_COUNT := by
  by_cases hkl : key.length ≤ MAX_RW_COUNT
  · rw [del_eq crc32 s key hkl]
    exact ⟨fun _ => hkl, fun _ => rfl⟩
  · rw [del_key_short crc32 s key (Nat.lt_of_not_le hkl)]
    exact ⟨(fun h => by cases h), fun h => absurd h hkl⟩

/-- When `append_entry` returns normally: exactly when the key and the value
each go out in one `write`. -/
theorem append_entry_isOk_iff (crc32 : Bytes → Nat) (s : BitcaskStore) (key value : Bytes) :
    (append_entry crc32 s key value).1.isOk = true
      ↔ key.length ≤ MAX_RW_COUNT ∧ value.length ≤ MAX_RW_COUNT := by
  by_cases hkl : key.length ≤ MAX_RW_COUNT
  · by_cases hvl : value.length ≤ MAX_RW_COUNT
    · rw [append_entry_eq crc32 s key value hkl hvl]
      exact ⟨fun _ => ⟨hkl, hvl⟩, fun _ => rfl⟩
    · rw [append_entry_value_short crc32 s key value hkl (Nat.lt_of_not_le hvl)]
      exact ⟨(fun h => by cases h), fun h => absurd h.2 hvl⟩
  · rw [append_entry_key_short crc32 s key value (Nat.lt_of_not_le hkl)]
    exact ⟨(fun h => by cases h), fun h => absurd h.1 hkl⟩

/-- The file after `append_entry`, whether it returns normally or throws: the
file before it, then what was written. -/
theorem file_append_entry (crc32 : Bytes → Nat) (s : BitcaskStore) (key value : Bytes) :
    ∃ more, (append_entry crc32 s key value).2.file = s.file ++ more := by
  by_cases hkl : key.length ≤ MAX_RW_COUNT
  · by_cases hvl : value.length ≤ MAX_RW_COUNT
    · rw [append_entry_eq crc32 s key value hkl hvl]
      exact ⟨_, rfl⟩
    · rw [append_entry_value_short crc32 s key value hkl (Nat.lt_of_not_le hvl)]
      simp only [List.append_assoc]
      exact ⟨_, rfl⟩
  · rw [append_entry_key_short crc32 s key value (Nat.lt_of_not_le hkl)]
    exact ⟨_, List.append_assoc _ _ _⟩

/-- The file after `set`, whether it returns normally or throws: the file
before it, then what was written. -/
theorem file_set (crc32 : Bytes → Nat) (s : BitcaskStore) (key value : Bytes) :
    ∃ more, (s.set crc32 key value).2.file = s.file ++ more := by
  by_cases hk : key = []
  · exact ⟨[], by rw [hk, set_empty_key, List.append_nil]⟩
  · by_cases hkl : key.length ≤ MAX_RW_COUNT
    · by_cases hvl : value.length ≤ MAX_RW_COUNT
      · rw [set_eq crc32 s key value hk hkl hvl]
        exact ⟨_, rfl⟩
      · rw [set_value_short crc32 s key value hk hkl (Nat.lt_of_not_le hvl)]
        simp only [List.append_assoc]
        exact ⟨_, rfl⟩
    · rw [set_key_short crc32 s key value (Nat.lt_of_not_le hkl)]
      exact ⟨_, List.append_assoc _ _ _⟩

/-- The file after `del`, whether it returns normally or throws: the file
before it, then what was written. -/
theorem file_del (crc32 : Bytes → Nat) (s : BitcaskStore) (key : Bytes) :
    ∃ more, (s.del crc32 key).2.file = s.file ++ more := by
  by_cases hkl : key.length ≤ MAX_RW_COUNT
  · rw [del_eq crc32 s key hkl]
    exact ⟨_, rfl⟩
  · rw [del_key_short crc32 s key (Nat.lt_of_not_le hkl)]
    exact ⟨_, List.append_assoc _ _ _⟩

/-- The index after `del`, whether it returns normally or throws: the index
before it without the key. -/
theorem key_dir_del (crc32 : Bytes → Nat) (s : BitcaskStore) (key : Bytes) :
    (s.del crc32 key).2.key_dir_ = s.key_dir_.erase key := by
  by_cases hkl : key.length ≤ MAX_RW_COUNT
  · rw [del_eq crc32 s key hkl]
  · rw [del_key_short crc32 s key (Nat.lt_of_not_le hkl)]

theorem read_value_eq (s : BitcaskStore) (offset size : Nat) :
    s.read_value offset size
      = if s.file.length - offset < size then none else some (pread s.file size offset) := by
  unfold read_value
  have hlen : (pread s.file size offset).length = min size (s.file.length - offset) := by
    simp [pread]
  by_cases h : s.file.length - offset < size
  · have : (pread s.file size offset).length ≠ size := by rw [hlen]; omega
    simp [h, this]
  · have hfull : (pread s.file size offset).length = size := by rw [hlen]; omega
    simp [h, hfull, pread_string]

theorem entry_bytes_eq (crc32 : Bytes → Nat) (now : Nat) (key value : Bytes) :
    entry_bytes crc32 now key value
      = (entry_header crc32 now key value).bytes ++ (key ++ value) := by
  simp [entry_bytes]

/-- What `get` returns right after a `set` that returned normally: the value. -/
theorem get_set (crc32 : Bytes → Nat) (s : BitcaskStore) (key value : Bytes) (hk : key ≠ [])
    (hkl : key.length ≤ MAX_RW_COUNT) (hvl : value.length ≤ MAX_RW_COUNT) :
    (s.set crc32 key value).2.get key = some value := by
  rw [set_eq crc32 s key value hk hkl hvl]
  simp only [get, KeyDir.find_assign_self, read_value_eq]
  rw [u32_of_lt (Nat.lt_of_le_of_lt hvl MAX_RW_COUNT_lt)]
  have hpos : s.file.length + sizeof_LogHeader + key.length
      = (s.file ++ ((entry_header crc32 (s.clock s.ticks) key value).bytes ++ key)).length := by
    simp [LogHeader.length_header_bytes, sizeof_LogHeader, Nat.add_assoc]
  have hfile : s.file ++ entry_bytes crc32 (s.clock s.ticks) key value
      = (s.file ++ ((entry_header crc32 (s.clock s.ticks) key value).bytes ++ key)) ++ value := by
    simp [entry_bytes]
  rw [hpos, hfile, pread_append, if_neg, List.take_length]
  rw [List.length_append, Nat.add_sub_cancel_left]
  exact Nat.lt_irrefl _

end BitcaskStore

theorem KeyDir.filter_key_erase (m : KeyDir) (key : Bytes) :
    (KeyDir.erase m key).filter (fun p => decide (p.1 = key)) = [] := by
  induction m with
  | nil => rfl
  | cons p rest ih =>
    obtain ⟨k, e⟩ := p
    by_cases h : k = key
    · rw [h, KeyDir.erase_cons_self]; exact ih
    · rw [KeyDir.erase_cons_ne e rest h, List.filter_cons]
      simp [h, ih]

theorem KeyDir.filter_key_assign (m : KeyDir) (key : Bytes) (entry : KeyDirEntry) :
    (KeyDir.assign m key entry).filter (fun p => decide (p.1 = key)) = [(key, entry)] := by
  rw [KeyDir.assign, List.filter_cons]
  simp [KeyDir.filter_key_erase]

namespace BitcaskStore

theorem key_dir_set (crc32 : Bytes → Nat) (s : BitcaskStore) (key value : Bytes)
    (hk : key ≠ []) (hkl : key.length ≤ MAX_RW_COUNT) (hvl : value.length ≤ MAX_RW_COUNT) :
    (s.set crc32 key value).2.key_dir_
      = s.key_dir_.assign key
          { file_id := 0, value_size := u32 value.length,
            value_pos := s.file.length + sizeof_LogHeader + key.length,
            timestamp := u32 (s.clock (s.ticks + 1)) } := by
  rw [set_eq crc32 s key value hk hkl hvl]

theorem get_del (crc32 : Bytes → Nat) (s : BitcaskStore) (key : Bytes) :
    (s.del crc32 key).2.get key = none := by
  simp only [get, key_dir_del, KeyDir.find_erase_self]

theorem get_eq_none_of_short (s : BitcaskStore) (key : Bytes) (entry : KeyDirEntry)
    (hfind : s.key_dir_.find key = some entry)
    (hshort : s.file.length - entry.value_pos < entry.value_size) :
    s.get key = none := by
  simp only [get, hfind, read_value_eq, if_pos hshort]

theorem get_eq_none_of_absent (s : BitcaskStore) (key : Bytes)
    (hfind : s.key_dir_.find key = none) : s.get key = none := by
  simp only [get, hfind]

theorem run_cons (crc32 : Bytes → Nat) (s : BitcaskStore) (op : Op) (ops : List Op) :
    run crc32 s (op :: ops) = run crc32 (Op.apply crc32 s op) ops := rfl

theorem run_nil (crc32 : Bytes → Nat) (s : BitcaskStore) : run crc32 s [] = s := rfl

theorem run_append (crc32 : Bytes → Nat) (s : BitcaskStore) (ops more : List Op) :
    run crc32 s (ops ++ more) = run crc32 (run crc32 s ops) more := by
  simp [run, List.foldl_append]

theorem key_dir_set3 (crc32 : Bytes → Nat) (s : BitcaskStore) (key v1 v2 v3 : Bytes)
    (hk : key ≠ []) (hkl : key.length ≤ MAX_RW_COUNT) (h1 : v1.length ≤ MAX_RW_COUNT)
    (h2 : v2.length ≤ MAX_RW_COUNT) (h3 : v3.length ≤ MAX_RW_COUNT) :
    ∃ entry, (run crc32 s [Op.set key v1, Op.set key v2, Op.set key v3]).key_dir_
      = s.key_dir_.assign key entry := by
  simp only [run_cons, run_nil, Op.apply]
  rw [key_dir_set _ _ _ _ hk hkl h3, key_dir_set _ _ _ _ hk hkl h2, key_dir_set _ _ _ _ hk hkl h1,
    KeyDir.assign_assign, KeyDir.assign_assign]
  exact ⟨_, rfl⟩

theorem get_set3 (crc32 : Bytes → Nat) (s : BitcaskStore) (key v1 v2 v3 : Bytes)
    (hk : key ≠ []) (hkl : key.length ≤ MAX_RW_COUNT) (h3 : v3.length ≤ MAX_RW_COUNT) :
    (run crc32 s [Op.set key v1, Op.set key v2, Op.set key v3]).get key = some v3 := by
  simp only [run_cons, run_nil, Op.apply]
  exact get_set crc32 _ key v3 hk hkl h3

/-- When a call returns normally. -/
theorem result_eq_ok_iff (crc32 : Bytes → Nat) (s : BitcaskStore) (op : Op) :
    op.result crc32 s = Except.ok () ↔ op.goes_through := by
  cases op with
  | set k v => exact set_ok_iff crc32 s k v
  | del k => exact del_ok_iff crc32 s k

/-- When every call of a sequence returns normally, whatever the state the
sequence starts in. -/
theorem run_completes_iff (crc32 : Bytes → Nat) (ops : List Op) :
    ∀ s : BitcaskStore, run_completes crc32 s ops ↔ ∀ op ∈ ops, op.goes_through := by
  induction ops with
  | nil => intro s; simp [run_completes]
  | cons o ops ih =>
    intro s
    simp only [run_completes, result_eq_ok_iff, ih, List.mem_cons, forall_eq_or_imp]

end BitcaskStore

/-- The store opened on an empty file. -/
theorem open_store_nil (crc32 : Bytes → Nat) (clock : Nat → Nat) :
    open_store crc32 [] clock
      = { file := [], key_dir_ := [], clock := clock, ticks := 0,
          trace := [Event.index_clear] } := by
  simp [open_store, BitcaskStore.recover]

/-! ## The live index after a sequence of calls -/

theorem KeyDir.isSome_find_iff (m : KeyDir) (key : Bytes) :
    (KeyDir.find m key).isSome ↔ key ∈ m.map Prod.fst := by
  induction m with
  | nil => simp [KeyDir.find]
  | cons p rest ih =>
    obtain ⟨k, e⟩ := p
    by_cases h : k = key
    · simp [KeyDir.find_cons, h]
    · have h' : ¬ key = k := fun h' => h h'.symm
      simp [KeyDir.find_cons, h, h', ih]

theorem KeyDir.nodup_keys_erase (m : KeyDir) (key : Bytes) (h : (m.map Prod.fst).Nodup) :
    ((KeyDir.erase m key).map Prod.fst).Nodup := by
  induction m with
  | nil => simp [KeyDir.erase]
  | cons p rest ih =>
    obtain ⟨k, e⟩ := p
    rw [List.map_cons, List.nodup_cons] at h
    by_cases hk : k = key
    · rw [hk, KeyDir.erase_cons_self]; exact ih h.2
    · rw [KeyDir.erase_cons_ne e rest hk, List.map_cons, List.nodup_cons]
      refine ⟨fun hmem => h.1 ?_, ih h.2⟩
      have hsome := (KeyDir.isSome_find_iff _ _).2 hmem
      rw [KeyDir.find_erase_ne rest hk] at hsome
      exact (KeyDir.isSome_find_iff _ _).1 hsome

theorem KeyDir.nodup_keys_assign (m : KeyDir) (key : Bytes) (entry : KeyDirEntry)
    (h : (m.map Prod.fst).Nodup) : ((KeyDir.assign m key entry).map Prod.fst).Nodup := by
  rw [KeyDir.assign, List.map_cons, List.nodup_cons]
  refine ⟨fun hmem => ?_, KeyDir.nodup_keys_erase m key h⟩
  have hsome := (KeyDir.isSome_find_iff _ _).2 hmem
  rw [KeyDir.find_erase_self] at hsome
  cases hsome

theorem last_op_append (ops : List Op) (op : Op) (key : Bytes) :
    last_op (ops ++ [op]) key = if op.key = key then some op else last_op ops key := by
  simp only [last_op, List.reverse_append, List.reverse_cons, List.reverse_nil, List.nil_append,
    List.singleton_append, List.find?_cons]
  by_cases h : op.key = key <;> simp [h]

theorem last_op_key {ops : List Op} {key : Bytes} {op : Op} (h : last_op ops key = some op) :
    op ∈ ops ∧ op.key = key := by
  unfold last_op at h
  have h1 := List.find?_some h
  have h2 := List.mem_of_find?_eq_some h
  exact ⟨List.mem_reverse.1 h2, by simpa using h1⟩

theorem last_op_is_set_mem {ops : List Op} {key : Bytes} (h : last_op_is_set ops key = true) :
    key ∈ ops.map Op.key := by
  unfold last_op_is_set at h
  cases hl : last_op ops key with
  | none => rw [hl] at h; cases h
  | some op =>
    have := last_op_key hl
    exact List.mem_map.2 ⟨op, this.1, this.2⟩

/-- The live index after a sequence of calls on a store with an empty index,
when every call goes through: no key occurs twice, and a key is present exactly when the most
recent call about it is a `set`. -/
theorem run_index_invariant (crc32 : Bytes → Nat) (s : BitcaskStore) (hs : s.key_dir_ = [])
    (ops : List Op) (hfit : ∀ op ∈ ops, op.goes_through) :
    ((run crc32 s ops).key_dir_.map Prod.fst).Nodup
      ∧ ∀ key, ((run crc32 s ops).key_dir_.find key).isSome = last_op_is_set ops key := by
  induction ops using List.reverseRecOn with
  | nil => simp [BitcaskStore.run_nil, hs, KeyDir.find, last_op_is_set, last_op]
  | append_singleton ops op ih =>
    have ih' := ih (fun o ho => hfit o (List.mem_append_left _ ho))
    have hop := hfit op (List.mem_append_right _ (List.mem_singleton_self op))
    rw [BitcaskStore.run_append, BitcaskStore.run_cons, BitcaskStore.run_nil]
    cases op with
    | set k v =>
      simp only [Op.apply, BitcaskStore.key_dir_set crc32 _ k v hop.1 hop.2.1 hop.2.2]
      refine ⟨KeyDir.nodup_keys_assign _ _ _ ih'.1, fun key => ?_⟩
      by_cases h : k = key
      · subst h
        simp [KeyDir.find_assign_self, last_op_is_set, last_op_append, Op.key]
      · have h' : key ≠ k := fun e => h e.symm
        rw [KeyDir.find_assign_ne _ _ h', ih'.2 key]
        simp [last_op_is_set, last_op_append, Op.key, h]
    | del k =>
      simp only [Op.apply, BitcaskStore.key_dir_del]
      refine ⟨KeyDir.nodup_keys_erase _ _ ih'.1, fun key => ?_⟩
      by_cases h : k = key
      · subst h
        simp [KeyDir.find_erase_self, last_op_is_set, last_op_append, Op.key]
      · have h' : key ≠ k := fun e => h e.symm
        rw [KeyDir.find_erase_ne _ h', ih'.2 key]
        simp [last_op_is_set, last_op_append, Op.key, h]

theorem key_count_run (crc32 : Bytes → Nat) (s : BitcaskStore) (hs : s.key_dir_ = [])
    (ops : List Op) (hfit : ∀ op ∈ ops, op.goes_through) :
    (run crc32 s ops).key_count = spec_key_count ops := by
  obtain ⟨hnodup, hlive⟩ := run_index_invariant crc32 s hs ops hfit
  unfold BitcaskStore.key_count spec_key_count
  rw [← List.length_map (run crc32 s ops).key_dir_ Prod.fst]
  apply List.Perm.length_eq
  rw [List.perm_ext_iff_of_nodup hnodup ((List.nodup_dedup _).filter _)]
  intro key
  rw [← KeyDir.isSome_find_iff, hlive key, List.mem_filter, List.mem_dedup]
  exact ⟨fun h => ⟨last_op_is_set_mem h, h⟩, fun h => h.2⟩

/-! ## The loop of `recover` on a log of well-formed records -/

theorem pread_string_append_add (pre mid post : Bytes) :
    pread_string (pre ++ (mid ++ post)) mid.length pre.length = mid := by
  simp [pread_string, pread]

theorem LogRecord.length_record_bytes (crc32 : Bytes → Nat) (r : LogRecord) :
    (r.bytes crc32).length = r.size := by
  simp only [LogRecord.bytes, BitcaskStore.entry_bytes, LogRecord.size, List.length_append,
    LogHeader.length_header_bytes, sizeof_LogHeader]

theorem log_bytes_nil (crc32 : Bytes → Nat) : log_bytes crc32 [] = [] := rfl

theorem log_bytes_cons (crc32 : Bytes → Nat) (r : LogRecord) (rs : List LogRecord) :
    log_bytes crc32 (r :: rs) = r.bytes crc32 ++ log_bytes crc32 rs := by
  simp [log_bytes]

theorem log_bytes_append (crc32 : Bytes → Nat) (rs more : List LogRecord) :
    log_bytes crc32 (rs ++ more) = log_bytes crc32 rs ++ log_bytes crc32 more := by
  simp [log_bytes]

theorem entry_header_fixed (crc32 : Bytes → Nat) (r : LogRecord) (h : r.well_formed) :
    LogHeader.of_bytes ((BitcaskStore.entry_header crc32 r.now r.key r.value).bytes)
      = { crc := u32 (crc32 (BitcaskStore.crc_data
            { crc := 0, timestamp := u32 r.now, key_size := r.key.length,
              value_size := r.value.length } r.key r.value))
          timestamp := u32 r.now
          key_size := r.key.length
          value_size := r.value.length } := by
  have hb := LogHeader.of_bytes_bytes (BitcaskStore.entry_header crc32 r.now r.key r.value) []
  rw [List.append_nil] at hb
  rw [hb]
  simp [BitcaskStore.entry_header, u32_u32, u32_of_lt h.1, u32_of_lt h.2]

/-- One turn of the loop of `recover` at a well-formed record. -/
theorem recover_loop_record (crc32 : Bytes → Nat) (s : BitcaskStore) (pre post : Bytes)
    (r : LogRecord) (hr : r.well_formed) (hfile : s.file = pre ++ (r.bytes crc32 ++ post))
    (fuel : Nat) :
    BitcaskStore.recover_loop crc32 s.file.length (fuel + 1) pre.length s
      = BitcaskStore.recover_loop crc32 s.file.length fuel (pre.length + r.size)
          { s with key_dir_ := index_step s.key_dir_ pre.length r,
                   trace := s.trace ++ replay_trace [r] } := by
  have hfile1 : s.file = pre ++ ((BitcaskStore.entry_header crc32 r.now r.key r.value).bytes
      ++ (r.key ++ (r.value ++ post))) := by
    rw [hfile]; simp [LogRecord.bytes, BitcaskStore.entry_bytes]
  have hfile2 : s.file = (pre ++ (BitcaskStore.entry_header crc32 r.now r.key r.value).bytes)
      ++ (r.key ++ (r.value ++ post)) := by
    rw [hfile1]; simp
  have hfile3 : s.file = (pre ++ (BitcaskStore.entry_header crc32 r.now r.key r.value).bytes
      ++ r.key) ++ (r.value ++ post) := by
    rw [hfile1]; simp
  have hlen : s.file.length = pre.length + (r.size + post.length) := by
    rw [hfile]; simp [LogRecord.length_record_bytes]
  have hsize : 16 ≤ r.size := by
    simp only [LogRecord.size, sizeof_LogHeader]; omega
  have hlt : pre.length < s.file.length := by omega
  have hhead : pread s.file sizeof_LogHeader pre.length
      = (BitcaskStore.entry_header crc32 r.now r.key r.value).bytes := by
    rw [hfile1, pread_append]
    exact List.take_left' (LogHeader.length_header_bytes _)
  have hkey : pread_string s.file r.key.length (pre.length + sizeof_LogHeader) = r.key := by
    have e : pre.length + sizeof_LogHeader
        = (pre ++ (BitcaskStore.entry_header crc32 r.now r.key r.value).bytes).length := by
      simp [LogHeader.length_header_bytes, sizeof_LogHeader]
    rw [e, hfile2, pread_string_append_add]
  have hval : pread_string s.file r.value.length (pre.length + sizeof_LogHeader + r.key.length)
      = r.value := by
    have e : pre.length + sizeof_LogHeader + r.key.length
        = (pre ++ (BitcaskStore.entry_header crc32 r.now r.key r.value).bytes ++ r.key).length := by
      simp only [List.length_append, LogHeader.length_header_bytes, sizeof_LogHeader]
    rw [e, hfile3, pread_string_append_add]
  rw [BitcaskStore.recover_loop, if_pos hlt]
  simp only [sizeof_LogHeader] at hhead hkey hval ⊢
  simp only [hhead, entry_header_fixed crc32 r hr, LogHeader.length_header_bytes,
    ne_eq, not_true_eq_false, if_false]
  simp only [hkey, hval, BitcaskStore.verify_entry, BitcaskStore.crc_data, beq_self_eq_true,
    Bool.not_true, Bool.false_eq_true, if_false]
  by_cases hv : r.value.length > 0
  · simp [hv, index_step, replay_trace, LogRecord.size, sizeof_LogHeader]
  · simp [hv, index_step, replay_trace, LogRecord.size, sizeof_LogHeader]

theorem replay_trace_cons (r : LogRecord) (rs : List LogRecord) :
    replay_trace (r :: rs) = replay_trace [r] ++ replay_trace rs := rfl

theorem length_log_bytes_ge (crc32 : Bytes → Nat) (rs : List LogRecord) :
    16 * rs.length ≤ (log_bytes crc32 rs).length := by
  induction rs with
  | nil => simp [log_bytes_nil]
  | cons r rs ih =>
    rw [log_bytes_cons, List.length_append, LogRecord.length_record_bytes, List.length_cons]
    have : 16 ≤ r.size := by simp only [LogRecord.size, sizeof_LogHeader]; omega
    omega

/-- The loop of `recover` over a run of well-formed records: it folds them
into the index and goes on behind them. -/
theorem recover_loop_records (crc32 : Bytes → Nat) (rs : List LogRecord)
    (hrs : ∀ r ∈ rs, r.well_formed) :
    ∀ (s : BitcaskStore) (pre post : Bytes) (fuel : Nat),
      s.file = pre ++ (log_bytes crc32 rs ++ post) →
      BitcaskStore.recover_loop crc32 s.file.length (rs.length + fuel) pre.length s
        = BitcaskStore.recover_loop crc32 s.file.length fuel
            (pre.length + (log_bytes crc32 rs).length)
            { s with key_dir_ := replay_index s.key_dir_ pre.length rs,
                     trace := s.trace ++ replay_trace rs } := by
  induction rs with
  | nil =>
    intro s pre post fuel _
    simp [log_bytes_nil, replay_index, replay_trace]
  | cons r rs ih =>
    intro s pre post fuel hfile
    have hr : r.well_formed := hrs r (List.mem_cons_self r rs)
    have hrs' : ∀ r ∈ rs, r.well_formed := fun x hx => hrs x (List.mem_cons_of_mem r hx)
    have hfile1 : s.file = pre ++ (r.bytes crc32 ++ (log_bytes crc32 rs ++ post)) := by
      rw [hfile, log_bytes_cons, List.append_assoc]
    have hfuel : (r :: rs).length + fuel = (rs.length + fuel) + 1 := by
      simp only [List.length_cons]; omega
    rw [hfuel, recover_loop_record crc32 s pre _ r hr hfile1]
    have hfile2 : s.file = (pre ++ r.bytes crc32) ++ (log_bytes crc32 rs ++ post) := by
      rw [hfile1, List.append_assoc]
    have hpre : (pre ++ r.bytes crc32).length = pre.length + r.size := by
      rw [List.length_append, LogRecord.length_record_bytes]
    have step := ih hrs'
      { s with key_dir_ := index_step s.key_dir_ pre.length r,
               trace := s.trace ++ replay_trace [r] }
      (pre ++ r.bytes crc32) post fuel hfile2
    rw [hpre] at step
    rw [step]
    simp only [replay_index, log_bytes_cons, List.length_append, LogRecord.length_record_bytes,
      replay_trace_cons r rs, List.append_assoc, Nat.add_assoc]

/-- The loop of `recover` stops when fewer than 16 bytes are left. -/
theorem recover_loop_short (crc32 : Bytes → Nat) (s : BitcaskStore) (fuel offset : Nat)
    (h : s.file.length < offset + 16) :
    BitcaskStore.recover_loop crc32 s.file.length fuel offset s = s := by
  cases fuel with
  | zero => rfl
  | succ fuel =>
    rw [BitcaskStore.recover_loop]
    by_cases hlt : offset < s.file.length
    · have hlen : (pread s.file sizeof_LogHeader offset).length ≠ sizeof_LogHeader := by
        simp only [pread, List.length_take, List.length_drop, sizeof_LogHeader]
        omega
      simp only [if_pos hlt, hlen, ne_eq, not_false_eq_true, if_true]
    · rw [if_neg hlt]

/-- The loop of `recover` stops at a record that fails its checksum. -/
theorem recover_loop_mismatch (crc32 : Bytes → Nat) (s : BitcaskStore) (fuel offset : Nat)
    (h : verifies_at crc32 s.file offset = false) :
    BitcaskStore.recover_loop crc32 s.file.length fuel offset s = s := by
  cases fuel with
  | zero => rfl
  | succ fuel =>
    rw [BitcaskStore.recover_loop]
    by_cases hlt : offset < s.file.length
    · rw [if_pos hlt]
      by_cases hlen : (pread s.file sizeof_LogHeader offset).length ≠ sizeof_LogHeader
      · simp only [hlen, ne_eq, not_false_eq_true, if_true]
      · unfold verifies_at at h
        simp only [hlen, if_false, h, Bool.not_false, if_true]
    · rw [if_neg hlt]

/-- The number of turns the fuel allows does not matter once it covers the
bytes still to scan: every turn that goes on moves the offset forward. -/
theorem recover_loop_fuel (crc32 : Bytes → Nat) (file_size : Nat) :
    ∀ (fuel1 fuel2 offset : Nat) (s : BitcaskStore),
      file_size - offset ≤ fuel1 → file_size - offset ≤ fuel2 →
      BitcaskStore.recover_loop crc32 file_size fuel1 offset s
        = BitcaskStore.recover_loop crc32 file_size fuel2 offset s := by
  intro fuel1
  induction fuel1 with
  | zero =>
    intro fuel2 offset s h1 _
    have hge : ¬ offset < file_size := by omega
    cases fuel2 with
    | zero => rfl
    | succ fuel2 => rw [BitcaskStore.recover_loop, BitcaskStore.recover_loop, if_neg hge]
  | succ fuel1 ih =>
    intro fuel2 offset s h1 h2
    cases fuel2 with
    | zero =>
      have hge : ¬ offset < file_size := by omega
      rw [BitcaskStore.recover_loop, BitcaskStore.recover_loop, if_neg hge]
    | succ fuel2 =>
      rw [BitcaskStore.recover_loop, BitcaskStore.recover_loop]
      by_cases hlt : offset < file_size
      · simp only [if_pos hlt]
        split
        · rfl
        · split
          · rfl
          · apply ih
            · simp only [sizeof_LogHeader]; omega
            · simp only [sizeof_LogHeader]; omega
      · simp only [if_neg hlt]

/-- What `recover` computes on a log of well-formed records followed by fewer
than 16 more bytes: the fold of the records into an empty index. -/
theorem recover_log (crc32 : Bytes → Nat) (s : BitcaskStore) (rs : List LogRecord)
    (hrs : ∀ r ∈ rs, r.well_formed) (tail : Bytes) (htail : tail.length < 16)
    (hfile : s.file = log_bytes crc32 rs ++ tail) :
    BitcaskStore.recover crc32 s
      = { s with key_dir_ := replay_index [] 0 rs,
                 trace := s.trace ++ [Event.index_clear] ++ replay_trace rs } := by
  unfold BitcaskStore.recover
  by_cases h0 : s.file.length = 0
  · have hge := length_log_bytes_ge crc32 rs
    have hlen : s.file.length = (log_bytes crc32 rs).length + tail.length := by
      rw [hfile, List.length_append]
    have hnil : rs = [] := List.length_eq_zero.1 (by omega)
    simp [h0, hnil, replay_index, replay_trace]
  · have hge := length_log_bytes_ge crc32 rs
    have hlen : s.file.length = (log_bytes crc32 rs).length + tail.length := by
      rw [hfile, List.length_append]
    have hfuel : s.file.length = rs.length + (s.file.length - rs.length) := by omega
    simp only [h0, if_false]
    have step := recover_loop_records crc32 rs hrs
      { s with key_dir_ := [], trace := s.trace ++ [Event.index_clear] } [] tail
      (s.file.length - rs.length) (by simpa using hfile)
    simp only [List.length_nil, Nat.zero_add] at step
    rw [← hfuel] at step
    rw [step]
    exact recover_loop_short crc32
      { s with key_dir_ := replay_index [] 0 rs,
               trace := s.trace ++ [Event.index_clear] ++ replay_trace rs }
      (s.file.length - rs.length) (log_bytes crc32 rs).length (by simp only [hlen]; omega)

/-! ## The live index and the replay of the log -/

theorem KeyDir.locations_erase (m : KeyDir) (key : Bytes) :
    KeyDir.locations (KeyDir.erase m key)
      = (KeyDir.locations m).filter (fun q => decide (q.1 ≠ key)) := by
  induction m with
  | nil => rfl
  | cons p rest ih =>
    obtain ⟨k, e⟩ := p
    by_cases h : k = key
    · rw [h, KeyDir.erase_cons_self, ih]
      simp [KeyDir.locations]
    · rw [KeyDir.erase_cons_ne e rest h]
      simp only [KeyDir.locations, List.map_cons, List.filter_cons] at ih ⊢
      simp [h, ih]

theorem KeyDir.locations_assign (m : KeyDir) (key : Bytes) (entry : KeyDirEntry) :
    KeyDir.locations (KeyDir.assign m key entry)
      = (key, entry.value_pos, entry.value_size)
          :: (KeyDir.locations m).filter (fun q => decide (q.1 ≠ key)) := by
  rw [KeyDir.assign, ← KeyDir.locations_erase]
  rfl

theorem KeyDir.find_of_locations_eq :
    ∀ (m1 m2 : KeyDir), KeyDir.locations m1 = KeyDir.locations m2 → ∀ key,
      (KeyDir.find m1 key).map (fun e => (e.value_pos, e.value_size))
        = (KeyDir.find m2 key).map (fun e => (e.value_pos, e.value_size)) := by
  intro m1
  induction m1 with
  | nil =>
    intro m2 h key
    cases m2 with
    | nil => rfl
    | cons q rest => simp [KeyDir.locations] at h
  | cons p rest ih =>
    intro m2 h key
    cases m2 with
    | nil => simp [KeyDir.locations] at h
    | cons q rest2 =>
      obtain ⟨k1, e1⟩ := p
      obtain ⟨k2, e2⟩ := q
      simp only [KeyDir.locations, List.map_cons, List.cons.injEq, Prod.mk.injEq] at h
      obtain ⟨⟨hk, hp, hs⟩, hrest⟩ := h
      subst hk
      rw [KeyDir.find_cons, KeyDir.find_cons]
      by_cases hkey : k1 = key
      · simp [hkey, hp, hs]
      · simp only [hkey, if_false]
        exact ih rest2 hrest key

theorem BitcaskStore.get_congr (s1 s2 : BitcaskStore) (hfile : s1.file = s2.file)
    (hloc : KeyDir.locations s1.key_dir_ = KeyDir.locations s2.key_dir_) (key : Bytes) :
    s1.get key = s2.get key := by
  have h := KeyDir.find_of_locations_eq _ _ hloc key
  unfold BitcaskStore.get
  cases h1 : KeyDir.find s1.key_dir_ key with
  | none =>
    rw [h1] at h
    cases h2 : KeyDir.find s2.key_dir_ key with
    | none => rfl
    | some e2 => rw [h2] at h; cases h
  | some e1 =>
    rw [h1] at h
    cases h2 : KeyDir.find s2.key_dir_ key with
    | none => rw [h2] at h; cases h
    | some e2 =>
      rw [h2] at h
      simp only [Option.map_some', Option.some.injEq, Prod.mk.injEq] at h
      simp only [BitcaskStore.read_value_eq, h.1, h.2, hfile]

theorem KeyDir.isSome_find_of_locations_eq (m1 m2 : KeyDir)
    (h : KeyDir.locations m1 = KeyDir.locations m2) (key : Bytes) :
    (KeyDir.find m1 key).isSome = (KeyDir.find m2 key).isSome := by
  have := congrArg Option.isSome (KeyDir.find_of_locations_eq m1 m2 h key)
  simpa using this

theorem KeyDir.length_of_locations_eq (m1 m2 : KeyDir)
    (h : KeyDir.locations m1 = KeyDir.locations m2) : m1.length = m2.length := by
  have := congrArg List.length h
  simpa [KeyDir.locations] using this

theorem replay_index_append (crc32 : Bytes → Nat) (rs more : List LogRecord) :
    ∀ (m : KeyDir) (offset : Nat),
      replay_index m offset (rs ++ more)
        = replay_index (replay_index m offset rs) (offset + (log_bytes crc32 rs).length) more := by
  induction rs with
  | nil => intro m offset; simp [replay_index, log_bytes_nil]
  | cons r rs ih =>
    intro m offset
    rw [List.cons_append, replay_index, replay_index, ih, log_bytes_cons, List.length_append,
      LogRecord.length_record_bytes, Nat.add_assoc]

/-- The log and the live index after a sequence of replayable calls on a store
whose file is a log of well-formed records and whose index agrees with the
replay of that log: the file is again such a log, and the index again agrees
with its replay on every location. -/
theorem run_log_invariant (crc32 : Bytes → Nat) (ops : List Op)
    (hops : ∀ op ∈ ops, op.replayable) :
    ∀ (s : BitcaskStore) (rs : List LogRecord), (∀ r ∈ rs, r.well_formed) →
      s.file = log_bytes crc32 rs →
      KeyDir.locations s.key_dir_ = KeyDir.locations (replay_index [] 0 rs) →
      ∃ rs', (∀ r ∈ rs', r.well_formed) ∧ (run crc32 s ops).file = log_bytes crc32 rs'
        ∧ KeyDir.locations (run crc32 s ops).key_dir_
            = KeyDir.locations (replay_index [] 0 rs') := by
  induction ops with
  | nil => intro s rs hrs hfile hloc; exact ⟨rs, hrs, hfile, hloc⟩
  | cons op ops ih =>
    intro s rs hrs hfile hloc
    have hop : op.replayable := hops op (List.mem_cons_self op ops)
    have hops' : ∀ o ∈ ops, o.replayable := fun o ho => hops o (List.mem_cons_of_mem op ho)
    rw [BitcaskStore.run_cons]
    cases op with
    | set k v =>
      by_cases hk : k = []
      · subst hk
        simp only [Op.apply, BitcaskStore.set_empty_key]
        exact ih hops' s rs hrs hfile hloc
      · obtain ⟨hkl, hv0, hvl⟩ := hop
        have hkl' := Nat.lt_of_le_of_lt hkl BitcaskStore.MAX_RW_COUNT_lt
        have hvl' := Nat.lt_of_le_of_lt hvl BitcaskStore.MAX_RW_COUNT_lt
        apply ih hops' _ (rs ++ [⟨s.clock s.ticks, k, v⟩])
        · intro r hr
          rcases List.mem_append.1 hr with h | h
          · exact hrs r h
          · rw [List.mem_singleton.1 h]; exact ⟨hkl', hvl'⟩
        · simp only [Op.apply, BitcaskStore.set_eq crc32 s k v hk hkl hvl, hfile,
            log_bytes_append, log_bytes_cons, log_bytes_nil, List.append_nil, LogRecord.bytes]
        · simp only [Op.apply, BitcaskStore.set_eq crc32 s k v hk hkl hvl,
            replay_index_append crc32 rs, replay_index, index_step, hv0, if_true,
            KeyDir.locations_assign, hloc, hfile, Nat.zero_add, u32_of_lt hvl']
    | del k =>
      have hkl : k.length ≤ MAX_RW_COUNT := hop
      have hkl' := Nat.lt_of_le_of_lt hkl BitcaskStore.MAX_RW_COUNT_lt
      apply ih hops' _ (rs ++ [⟨s.clock s.ticks, k, []⟩])
      · intro r hr
        rcases List.mem_append.1 hr with h | h
        · exact hrs r h
        · rw [List.mem_singleton.1 h]; exact ⟨hkl', Nat.succ_pos _⟩
      · simp only [Op.apply, BitcaskStore.del_eq crc32 s k hkl, hfile, log_bytes_append,
          log_bytes_cons, log_bytes_nil, List.append_nil, LogRecord.bytes]
      · simp only [Op.apply, BitcaskStore.del_eq crc32 s k hkl,
          replay_index_append crc32 rs, replay_index, index_step, List.length_nil,
          Nat.lt_irrefl, if_false, gt_iff_lt, KeyDir.locations_erase, hloc]

/-- The store after closing and reopening, when the file is a log of
well-formed records: the same file, and the replay of the log as index. -/
theorem reopen_log (crc32 : Bytes → Nat) (s : BitcaskStore) (rs : List LogRecord)
    (hrs : ∀ r ∈ rs, r.well_formed) (hfile : s.file = log_bytes crc32 rs) :
    (reopen crc32 s).file = s.file ∧ (reopen crc32 s).key_dir_ = replay_index [] 0 rs := by
  unfold reopen open_store close
  rw [recover_log crc32 _ rs hrs [] (by decide) (by simpa [BitcaskStore.sync] using hfile)]
  exact ⟨rfl, rfl⟩

/-! ## Tampered logs and tombstones -/

theorem length_flip_bit (file : Bytes) : ∀ i, (flip_bit file i).length = file.length := by
  induction file with
  | nil => intro i; rfl
  | cons b rest ih =>
    intro i
    by_cases h : i < 8
    · simp [flip_bit, h]
    · simp [flip_bit, h, ih]

theorem flip_bit_append (pre post : Bytes) :
    ∀ i, 8 * pre.length ≤ i → flip_bit (pre ++ post) i = pre ++ flip_bit post (i - 8 * pre.length) := by
  induction pre with
  | nil => intro i _; simp
  | cons b rest ih =>
    intro i h
    rw [List.length_cons] at h
    have h8 : ¬ i < 8 := by omega
    rw [List.cons_append, flip_bit, if_neg h8, ih (i - 8) (by omega), List.cons_append,
      List.length_cons]
    congr 3
    omega

/-- What `recover` computes on a log whose first records are well formed and
whose next record fails its checksum: the fold of the first records. -/
theorem recover_tampered (crc32 : Bytes → Nat) (s : BitcaskStore) (rs : List LogRecord)
    (hrs : ∀ r ∈ rs, r.well_formed) (post : Bytes)
    (hfile : s.file = log_bytes crc32 rs ++ post)
    (hbad : verifies_at crc32 s.file (log_bytes crc32 rs).length = false) :
    (BitcaskStore.recover crc32 s).key_dir_ = replay_index [] 0 rs := by
  unfold BitcaskStore.recover
  have hge := length_log_bytes_ge crc32 rs
  have hlen : s.file.length = (log_bytes crc32 rs).length + post.length := by
    rw [hfile, List.length_append]
  by_cases h0 : s.file.length = 0
  · have hnil : rs = [] := List.length_eq_zero.1 (by omega)
    simp [h0, hnil, replay_index]
  · have hfuel : s.file.length = rs.length + (s.file.length - rs.length) := by omega
    simp only [h0, if_false]
    have step := recover_loop_records crc32 rs hrs
      { s with key_dir_ := [], trace := s.trace ++ [Event.index_clear] } [] post
      (s.file.length - rs.length) (by simpa using hfile)
    simp only [List.length_nil, Nat.zero_add] at step
    rw [← hfuel] at step
    rw [step]
    rw [recover_loop_mismatch crc32
      { s with key_dir_ := replay_index [] 0 rs,
               trace := s.trace ++ [Event.index_clear] ++ replay_trace rs }
      (s.file.length - rs.length) (log_bytes crc32 rs).length hbad]

theorem find_index_step_tombstone (m : KeyDir) (offset : Nat) (r : LogRecord)
    (h : r.value = []) : KeyDir.find (index_step m offset r) r.key = none := by
  simp [index_step, h, KeyDir.find_erase_self]

/-- After `del(k)` on a store whose file is a log of well-formed records, the
reopened store has no entry for `k`. -/
theorem find_reopen_del (crc32 : Bytes → Nat) (s : BitcaskStore) (rs : List LogRecord)
    (hrs : ∀ r ∈ rs, r.well_formed) (hfile : s.file = log_bytes crc32 rs) (key : Bytes)
    (hk : key.length ≤ MAX_RW_COUNT) :
    KeyDir.find (reopen crc32 (s.del crc32 key).2).key_dir_ key = none := by
  have hrs' : ∀ r ∈ rs ++ [(⟨s.clock s.ticks, key, []⟩ : LogRecord)], r.well_formed := by
    intro r hr
    rcases List.mem_append.1 hr with h | h
    · exact hrs r h
    · rw [List.mem_singleton.1 h]
      exact ⟨Nat.lt_of_le_of_lt hk BitcaskStore.MAX_RW_COUNT_lt, Nat.succ_pos _⟩
  have hfile' : (s.del crc32 key).2.file
      = log_bytes crc32 (rs ++ [(⟨s.clock s.ticks, key, []⟩ : LogRecord)]) := by
    simp only [BitcaskStore.del_eq crc32 s key hk, hfile, log_bytes_append, log_bytes_cons,
      log_bytes_nil, List.append_nil, LogRecord.bytes]
  rw [(reopen_log crc32 _ _ hrs' hfile').2, replay_index_append crc32 rs, replay_index,
    replay_index]
  exact find_index_step_tombstone _ _ _ rfl

/-- After `set(k, v)` the file of a store whose file was a log of well-formed
records is again such a log. -/
theorem set_file_log (crc32 : Bytes → Nat) (s : BitcaskStore) (rs : List LogRecord)
    (hrs : ∀ r ∈ rs, r.well_formed) (hfile : s.file = log_bytes crc32 rs) (key value : Bytes)
    (hk : key.length ≤ MAX_RW_COUNT) (hv : value.length ≤ MAX_RW_COUNT) :
    ∃ rs', (∀ r ∈ rs', r.well_formed) ∧ (s.set crc32 key value).2.file = log_bytes crc32 rs' := by
  by_cases hkey : key = []
  · rw [hkey, BitcaskStore.set_empty_key]
    exact ⟨rs, hrs, hfile⟩
  · refine ⟨rs ++ [⟨s.clock s.ticks, key, value⟩], ?_, ?_⟩
    · intro r hr
      rcases List.mem_append.1 hr with h | h
      · exact hrs r h
      · rw [List.mem_singleton.1 h]
        exact ⟨Nat.lt_of_le_of_lt hk BitcaskStore.MAX_RW_COUNT_lt,
          Nat.lt_of_le_of_lt hv BitcaskStore.MAX_RW_COUNT_lt⟩
    · simp only [BitcaskStore.set_eq crc32 s key value hkey hk hv, hfile, log_bytes_append,
        log_bytes_cons, log_bytes_nil, List.append_nil, LogRecord.bytes]

end storage

/-! ## The standard CRC-32 detects the change of one byte -/

namespace utils

theorem crc32_shift_lt {c : Nat} (h : c < 2 ^ 32) : crc32_shift c < 2 ^ 32 := by
  unfold crc32_shift
  split
  · exact Nat.xor_lt_two_pow (by omega) (by decide)
  · omega

theorem crc32_shift_inj {c d : Nat} (hc : c < 2 ^ 32) (hd : d < 2 ^ 32)
    (h : crc32_shift c = crc32_shift d) : c = d := by
  have hP : Nat.testBit 3988292384 31 = true := by decide
  have hc2 : Nat.testBit (c / 2) 31 = false := Nat.testBit_lt_two_pow (by omega)
  have hd2 : Nat.testBit (d / 2) 31 = false := Nat.testBit_lt_two_pow (by omega)
  unfold crc32_shift at h
  by_cases hco : c % 2 = 1 <;> by_cases hdo : d % 2 = 1
  · rw [if_pos hco, if_pos hdo] at h
    have := Nat.xor_left_inj.1 h
    omega
  · rw [if_pos hco, if_neg hdo] at h
    have hb := congrArg (fun n => Nat.testBit n 31) h
    simp only [Nat.testBit_xor, hc2, hd2, hP] at hb
    cases hb
  · rw [if_neg hco, if_pos hdo] at h
    have hb := congrArg (fun n => Nat.testBit n 31) h
    simp only [Nat.testBit_xor, hc2, hd2, hP] at hb
    cases hb
  · rw [if_neg hco, if_neg hdo] at h
    omega

theorem crc32_update_lt {c : Nat} (h : c < 2 ^ 32) (b : Byte) : crc32_update c b < 2 ^ 32 := by
  unfold crc32_update
  have hb : b.val < 2 ^ 32 := lt_trans b.isLt (by decide)
  have h0 := Nat.xor_lt_two_pow h hb
  exact crc32_shift_lt (crc32_shift_lt (crc32_shift_lt (crc32_shift_lt (crc32_shift_lt
    (crc32_shift_lt (crc32_shift_lt (crc32_shift_lt h0)))))))

theorem crc32_update_ne {c d : Nat} (hc : c < 2 ^ 32) (hd : d < 2 ^ 32) (a b : Byte)
    (h : c ^^^ a.val ≠ d ^^^ b.val) : crc32_update c a ≠ crc32_update d b := by
  unfold crc32_update
  have ha : a.val < 2 ^ 32 := lt_trans a.isLt (by decide)
  have hb : b.val < 2 ^ 32 := lt_trans b.isLt (by decide)
  have x0 := Nat.xor_lt_two_pow hc ha
  have y0 := Nat.xor_lt_two_pow hd hb
  have x1 := crc32_shift_lt x0
  have y1 := crc32_shift_lt y0
  have x2 := crc32_shift_lt x1
  have y2 := crc32_shift_lt y1
  have x3 := crc32_shift_lt x2
  have y3 := crc32_shift_lt y2
  have x4 := crc32_shift_lt x3
  have y4 := crc32_shift_lt y3
  have x5 := crc32_shift_lt x4
  have y5 := crc32_shift_lt y4
  have x6 := crc32_shift_lt x5
  have y6 := crc32_shift_lt y5
  have x7 := crc32_shift_lt x6
  have y7 := crc32_shift_lt y6
  intro e
  exact h (crc32_shift_inj x0 y0 (crc32_shift_inj x1 y1 (crc32_shift_inj x2 y2
    (crc32_shift_inj x3 y3 (crc32_shift_inj x4 y4 (crc32_shift_inj x5 y5
      (crc32_shift_inj x6 y6 (crc32_shift_inj x7 y7 e))))))))

theorem foldl_crc32_update_lt (data : Bytes) :
    ∀ {c : Nat}, c < 2 ^ 32 → data.foldl crc32_update c < 2 ^ 32 := by
  induction data with
  | nil => intro c h; exact h
  | cons b rest ih => intro c h; exact ih (crc32_update_lt h b)

theorem foldl_crc32_update_ne (data : Bytes) :
    ∀ {c d : Nat}, c < 2 ^ 32 → d < 2 ^ 32 → c ≠ d →
      data.foldl crc32_update c ≠ data.foldl crc32_update d := by
  induction data with
  | nil => intro c d _ _ h; exact h
  | cons b rest ih =>
    intro c d hc hd h
    exact ih (crc32_update_lt hc b) (crc32_update_lt hd b)
      (crc32_update_ne hc hd b b (fun e => h (Nat.xor_left_inj.1 e)))

theorem crc32_lt (data : Bytes) : crc32 data < 2 ^ 32 := by
  unfold crc32
  exact Nat.xor_lt_two_pow (foldl_crc32_update_lt data (by decide)) (by decide)

/-- The standard CRC-32 detects every change of a single byte. -/
theorem crc32_detects_byte_change : storage.detects_byte_change crc32 := by
  intro pre a b post hab
  have hu : ∀ data, u32 (crc32 data) = crc32 data := fun data => by
    unfold u32; exact Nat.mod_eq_of_lt (crc32_lt data)
  rw [hu, hu]
  unfold crc32
  intro e
  have e' := Nat.xor_left_inj.1 e
  rw [List.foldl_append, List.foldl_append, List.foldl_cons, List.foldl_cons] at e'
  have hreg := foldl_crc32_update_lt pre (c := 4294967295) (by decide)
  refine foldl_crc32_update_ne post (crc32_update_lt hreg a) (crc32_update_lt hreg b)
    (crc32_update_ne hreg hreg a b (fun x => hab ?_)) e'
  exact Fin.ext (Nat.xor_right_inj.1 x)

end utils

theorem u32_bytes_u32_of_bytes (b0 b1 b2 b3 : Byte) :
    u32_bytes (u32_of_bytes [b0, b1, b2, b3]) = [b0, b1, b2, b3] := by
  have h0 := b0.isLt
  have h1 := b1.isLt
  have h2 := b2.isLt
  have h3 := b3.isLt
  simp only [u32_bytes, u32_of_bytes, List.getD_cons_zero, List.getD_cons_succ, List.cons.injEq,
    and_true]
  refine ⟨Fin.ext ?_, Fin.ext ?_, Fin.ext ?_, Fin.ext ?_⟩ <;>
    · rw [byte_of_val]
      omega

theorem u32_of_bytes_lt (b : Bytes) : u32_of_bytes b < 4294967296 := by
  have h0 := (b.getD 0 0).isLt
  have h1 := (b.getD 1 0).isLt
  have h2 := (b.getD 2 0).isLt
  have h3 := (b.getD 3 0).isLt
  unfold u32_of_bytes
  omega

set_option maxRecDepth 1000000 in
theorem byte_flip_ne : ∀ (b : Byte) (k : Fin 8), byte_of (b.val ^^^ 2 ^ k.val) ≠ b := by
  decide

namespace storage

/-! ## Records with one bit flipped -/

theorem flip_bit_append_left (pre post : Bytes) :
    ∀ i, i < 8 * pre.length → flip_bit (pre ++ post) i = flip_bit pre i ++ post := by
  induction pre with
  | nil => intro i h; simp at h
  | cons b rest ih =>
    intro i h
    rw [List.length_cons] at h
    by_cases h8 : i < 8
    · simp [flip_bit, h8]
    · rw [List.cons_append, flip_bit, if_neg h8, flip_bit, if_neg h8, ih (i - 8) (by omega),
        List.cons_append]

/-- Flipping a bit changes exactly one byte. -/
theorem flip_bit_split (file : Bytes) :
    ∀ i, i < 8 * file.length →
      ∃ (pre : Bytes) (a b : Byte) (post : Bytes), a ≠ b ∧ pre.length = i / 8
        ∧ file = pre ++ a :: post ∧ flip_bit file i = pre ++ b :: post := by
  induction file with
  | nil => intro i h; simp at h
  | cons c rest ih =>
    intro i h
    rw [List.length_cons] at h
    by_cases h8 : i < 8
    · refine ⟨[], c, byte_of (c.val ^^^ 2 ^ i), rest, ?_, ?_, rfl, ?_⟩
      · exact fun e => byte_flip_ne c ⟨i, h8⟩ e.symm
      · simp only [List.length_nil]; omega
      · simp [flip_bit, h8]
    · obtain ⟨pre, a, b, post, hab, hlen, hfile, hflip⟩ := ih (i - 8) (by omega)
      refine ⟨c :: pre, a, b, post, hab, ?_, ?_, ?_⟩
      · simp only [List.length_cons, hlen]; omega
      · rw [hfile]; rfl
      · rw [flip_bit, if_neg h8, hflip]; rfl

theorem pread_string_mid (pre mid post : Bytes) (count offset : Nat)
    (hcount : count = mid.length) (hoffset : offset = pre.length) :
    pread_string (pre ++ (mid ++ post)) count offset = mid := by
  subst hcount hoffset
  exact pread_string_append_add pre mid post

/-- What the check of `recover` computes on a block laid out as a record: the
stored checksum `c`, four timestamp bytes, the two sizes, and a body of
key and value of these sizes. -/
theorem verifies_at_block (crc32 : Bytes → Nat) (pre rest : Bytes) (c ks vs : Nat)
    (t4 body : Bytes) (hc : c < 4294967296) (hks : ks < 4294967296) (hvs : vs < 4294967296)
    (ht : t4.length = 4) (hbody : body.length = ks + vs) :
    verifies_at crc32
        (pre ++ ((u32_bytes c ++ (t4 ++ (u32_bytes ks ++ (u32_bytes vs ++ body)))) ++ rest))
        pre.length
      = (u32 (crc32 (t4 ++ (u32_bytes ks ++ (u32_bytes vs ++ body)))) == c) := by
  match t4, ht with
  | [b0, b1, b2, b3], _ =>
    have hT := u32_bytes_u32_of_bytes b0 b1 b2 b3
    have hTlt := u32_of_bytes_lt [b0, b1, b2, b3]
    have hhdr : u32_bytes c ++ ([b0, b1, b2, b3] ++ (u32_bytes ks ++ (u32_bytes vs ++ body)))
        = (LogHeader.mk c (u32_of_bytes [b0, b1, b2, b3]) ks vs).bytes ++ body := by
      simp only [LogHeader.bytes, hT, List.append_assoc]
    have hfile1 : pre ++ ((u32_bytes c ++ ([b0, b1, b2, b3]
          ++ (u32_bytes ks ++ (u32_bytes vs ++ body)))) ++ rest)
        = pre ++ ((LogHeader.mk c (u32_of_bytes [b0, b1, b2, b3]) ks vs).bytes
            ++ (body.take ks ++ (body.drop ks ++ rest))) := by
      rw [hhdr, List.append_assoc, ← List.append_assoc (body.take ks), List.take_append_drop]
    have hfile2 : pre ++ ((LogHeader.mk c (u32_of_bytes [b0, b1, b2, b3]) ks vs).bytes
            ++ (body.take ks ++ (body.drop ks ++ rest)))
        = (pre ++ (LogHeader.mk c (u32_of_bytes [b0, b1, b2, b3]) ks vs).bytes)
            ++ (body.take ks ++ (body.drop ks ++ rest)) := by
      rw [List.append_assoc]
    have hfile3 : pre ++ ((LogHeader.mk c (u32_of_bytes [b0, b1, b2, b3]) ks vs).bytes
            ++ (body.take ks ++ (body.drop ks ++ rest)))
        = (pre ++ (LogHeader.mk c (u32_of_bytes [b0, b1, b2, b3]) ks vs).bytes ++ body.take ks)
            ++ (body.drop ks ++ rest) := by
      simp only [List.append_assoc]
    have hktake : (body.take ks).length = ks := by
      rw [List.length_take]; omega
    have hkdrop : (body.drop ks).length = vs := by
      rw [List.length_drop]; omega
    have hhead : pread (pre ++ ((LogHeader.mk c (u32_of_bytes [b0, b1, b2, b3]) ks vs).bytes
            ++ (body.take ks ++ (body.drop ks ++ rest)))) 16 pre.length
        = (LogHeader.mk c (u32_of_bytes [b0, b1, b2, b3]) ks vs).bytes := by
      rw [pread_append]
      exact List.take_left' (LogHeader.length_header_bytes _)
    have hof : LogHeader.of_bytes (LogHeader.mk c (u32_of_bytes [b0, b1, b2, b3]) ks vs).bytes
        = LogHeader.mk c (u32_of_bytes [b0, b1, b2, b3]) ks vs := by
      have := LogHeader.of_bytes_bytes (LogHeader.mk c (u32_of_bytes [b0, b1, b2, b3]) ks vs) []
      rw [List.append_nil] at this
      rw [this]
      simp only [u32_of_lt hc, u32_of_lt hTlt, u32_of_lt hks, u32_of_lt hvs]
    have hkey : pread_string (pre ++ ((LogHeader.mk c (u32_of_bytes [b0, b1, b2, b3]) ks vs).bytes
            ++ (body.take ks ++ (body.drop ks ++ rest)))) ks (pre.length + 16)
        = body.take ks := by
      rw [hfile2]
      exact pread_string_mid _ _ _ _ _ hktake.symm
        (by rw [List.length_append, LogHeader.length_header_bytes])
    have hval : pread_string (pre ++ ((LogHeader.mk c (u32_of_bytes [b0, b1, b2, b3]) ks vs).bytes
            ++ (body.take ks ++ (body.drop ks ++ rest)))) vs (pre.length + 16 + ks)
        = body.drop ks := by
      rw [hfile3]
      exact pread_string_mid
        (pre ++ (LogHeader.mk c (u32_of_bytes [b0, b1, b2, b3]) ks vs).bytes ++ body.take ks)
        (body.drop ks) rest vs (pre.length + 16 + ks) hkdrop.symm
        (by rw [List.length_append, List.length_append, LogHeader.length_header_bytes, hktake])
    rw [hfile1]
    unfold verifies_at
    simp only [sizeof_LogHeader, hhead, hof, hkey, hval, BitcaskStore.verify_entry,
      BitcaskStore.crc_data, hT, List.append_assoc, List.take_append_drop]

theorem LogRecord.bytes_layout (crc32 : Bytes → Nat) (r : LogRecord) (hr : r.well_formed) :
    r.bytes crc32
      = u32_bytes (u32 (crc32 (u32_bytes (u32 r.now) ++ (u32_bytes r.key.length
            ++ (u32_bytes r.value.length ++ (r.key ++ r.value))))))
          ++ (u32_bytes (u32 r.now) ++ (u32_bytes r.key.length
            ++ (u32_bytes r.value.length ++ (r.key ++ r.value)))) := by
  simp only [LogRecord.bytes, BitcaskStore.entry_bytes, BitcaskStore.entry_header,
    BitcaskStore.crc_data, LogHeader.bytes, u32_of_lt hr.1, u32_of_lt hr.2, List.append_assoc]

/-- A record in which one bit of the timestamp, of the key or of the value is
flipped fails the check of `recover`, when the checksum detects the change of
one byte. -/
theorem verifies_at_flipped_record (crc32 : Bytes → Nat) (hcrc : detects_byte_change crc32)
    (pre rest : Bytes) (r : LogRecord) (hr : r.well_formed) (j : Nat)
    (hj : (32 ≤ j ∧ j < 64) ∨ (128 ≤ j ∧ j < 8 * r.size)) :
    verifies_at crc32 (pre ++ (flip_bit (r.bytes crc32) j ++ rest)) pre.length = false := by
  have hsize : r.size = 16 + r.key.length + r.value.length := rfl
  have hXlen : (u32_bytes (u32 r.now) ++ (u32_bytes r.key.length
      ++ (u32_bytes r.value.length ++ (r.key ++ r.value)))).length
        = 12 + r.key.length + r.value.length := by
    simp only [List.length_append, length_u32_bytes]; omega
  have hj32 : 32 ≤ j := by rcases hj with h | h <;> omega
  have hjlt : j - 32 < 8 * (u32_bytes (u32 r.now) ++ (u32_bytes r.key.length
      ++ (u32_bytes r.value.length ++ (r.key ++ r.value)))).length := by
    rw [hXlen]; rcases hj with h | h <;> omega
  have hflipR : flip_bit (r.bytes crc32) j
      = u32_bytes (u32 (crc32 (u32_bytes (u32 r.now) ++ (u32_bytes r.key.length
            ++ (u32_bytes r.value.length ++ (r.key ++ r.value))))))
          ++ flip_bit (u32_bytes (u32 r.now) ++ (u32_bytes r.key.length
            ++ (u32_bytes r.value.length ++ (r.key ++ r.value)))) (j - 32) := by
    rw [LogRecord.bytes_layout crc32 r hr, flip_bit_append _ _ j (by rw [length_u32_bytes]; omega),
      length_u32_bytes]
  obtain ⟨p, a, b, q, hab, _, hX, hflipX⟩ := flip_bit_split _ _ hjlt
  have hshape : ∃ t4 body : Bytes, t4.length = 4 ∧ body.length = r.key.length + r.value.length
      ∧ flip_bit (u32_bytes (u32 r.now) ++ (u32_bytes r.key.length
            ++ (u32_bytes r.value.length ++ (r.key ++ r.value)))) (j - 32)
          = t4 ++ (u32_bytes r.key.length ++ (u32_bytes r.value.length ++ body)) := by
    rcases hj with h | h
    · refine ⟨flip_bit (u32_bytes (u32 r.now)) (j - 32), r.key ++ r.value, ?_, ?_, ?_⟩
      · rw [length_flip_bit, length_u32_bytes]
      · rw [List.length_append]
      · exact flip_bit_append_left _ _ _ (by rw [length_u32_bytes]; omega)
    · refine ⟨u32_bytes (u32 r.now), flip_bit (r.key ++ r.value) (j - 32 - 96), ?_, ?_, ?_⟩
      · rw [length_u32_bytes]
      · rw [length_flip_bit, List.length_append]
      · have hassoc : u32_bytes (u32 r.now) ++ (u32_bytes r.key.length
              ++ (u32_bytes r.value.length ++ (r.key ++ r.value)))
            = (u32_bytes (u32 r.now) ++ (u32_bytes r.key.length ++ u32_bytes r.value.length))
              ++ (r.key ++ r.value) := by
          simp only [List.append_assoc]
        have hlen12 : (u32_bytes (u32 r.now)
            ++ (u32_bytes r.key.length ++ u32_bytes r.value.length)).length = 12 := rfl
        rw [hassoc, flip_bit_append _ _ (j - 32) (by rw [hlen12]; omega), hlen12]
        simp only [List.append_assoc]
  obtain ⟨t4, body, ht4, hbody, hflipX'⟩ := hshape
  rw [hflipR, hflipX',
    verifies_at_block crc32 pre rest _ r.key.length r.value.length t4 body (u32_lt _) hr.1 hr.2
      ht4 hbody,
    ← hflipX', hflipX, hX]
  exact beq_eq_false_iff_ne.2 (fun e => hcrc p a b q hab e.symm)

/-! ## The claims -/

/-- C1: for every non-empty key and every value, in every store state, when
`set(k, v)` returns normally the `get(k)` that follows returns a present value
that is exactly `v`; and `set` returns normally exactly when the key and the
value each go out in one `write`, that is, when neither is longer than
`0x7ffff000` bytes (otherwise it throws `std::runtime_error`). -/
theorem C1_set_then_get_returns_value (crc32 : Bytes → Nat) (s : BitcaskStore)
    (key value : Bytes) (hk : key ≠ []) :
    ((s.set crc32 key value).1 = Except.ok ()
        → (s.set crc32 key value).2.get key = some value)
      ∧ ((s.set crc32 key value).1 = Except.ok ()
        ↔ key.length ≤ MAX_RW_COUNT ∧ value.length ≤ MAX_RW_COUNT) := by
  constructor
  · intro hok
    obtain ⟨_, hkl, hvl⟩ := (BitcaskStore.set_ok_iff crc32 s key value).1 hok
    exact BitcaskStore.get_set crc32 s key value hk hkl hvl
  · rw [BitcaskStore.set_ok_iff]
    exact ⟨fun h => h.2, fun h => ⟨hk, h⟩⟩

/-- C1 (witness): the large-value test, a value of 1,048,576 bytes `X` set
under the key `large` in a store opened on an empty file: `set` returns
normally and `get` returns the value. -/
theorem C1_set_then_get_returns_value_witness :
    str "large" ≠ []
      ∧ ((open_store utils.crc32 [] test_clock).set utils.crc32 (str "large")
            (List.replicate 1048576 88)).1 = Except.ok ()
      ∧ ((open_store utils.crc32 [] test_clock).set utils.crc32 (str "large")
            (List.replicate 1048576 88)).2.get (str "large")
          = some (List.replicate 1048576 88) :=
  have hk : str "large" ≠ [] := by decide
  have hkl : (str "large").length ≤ MAX_RW_COUNT := by decide
  have hvl : (List.replicate 1048576 (88 : Byte)).length ≤ MAX_RW_COUNT := by
    rw [List.length_replicate]; decide
  have hok := (C1_set_then_get_returns_value utils.crc32 (open_store utils.crc32 [] test_clock)
    (str "large") (List.replicate 1048576 88) hk).2.2 ⟨hkl, hvl⟩
  ⟨hk, hok, (C1_set_then_get_returns_value utils.crc32 _ _ _ hk).1 hok⟩

/-- C2: in every store state and for every key, live or not, `del(k)` followed
by `get(k)` returns absent. -/
theorem C2_del_then_get_is_absent (crc32 : Bytes → Nat) (s : BitcaskStore) (key : Bytes) :
    (s.del crc32 key).2.get key = none :=
  BitcaskStore.get_del crc32 s key

/-- C3: for every non-empty key `k` and values `v1`, `v2`, `v3`, after
`set(k, v1)`, `set(k, v2)`, `set(k, v3)`, each of which returns normally, on a
store in which `k` was absent, the index holds exactly one entry for `k`,
`key_count` has grown by exactly 1, and `get(k)` returns `v3`. -/
theorem C3_overwrite_keeps_one_entry (crc32 : Bytes → Nat) (s : BitcaskStore)
    (key v1 v2 v3 : Bytes) (hk : key ≠ []) (habsent : s.key_dir_.find key = none)
    (hc : run_completes crc32 s [Op.set key v1, Op.set key v2, Op.set key v3]) :
    ((run crc32 s [Op.set key v1, Op.set key v2, Op.set key v3]).key_dir_.filter
        (fun p => decide (p.1 = key))).length = 1
      ∧ (run crc32 s [Op.set key v1, Op.set key v2, Op.set key v3]).key_count
          = s.key_count + 1
      ∧ (run crc32 s [Op.set key v1, Op.set key v2, Op.set key v3]).get key = some v3 := by
  have hfit := (BitcaskStore.run_completes_iff crc32 _ s).1 hc
  obtain ⟨_, hkl, h1⟩ := hfit (Op.set key v1) (by simp)
  obtain ⟨_, _, h2⟩ := hfit (Op.set key v2) (by simp)
  obtain ⟨_, _, h3⟩ := hfit (Op.set key v3) (by simp)
  obtain ⟨entry, hdir⟩ := BitcaskStore.key_dir_set3 crc32 s key v1 v2 v3 hk hkl h1 h2 h3
  refine ⟨?_, ?_, ?_⟩
  · rw [hdir, KeyDir.filter_key_assign]; rfl
  · rw [BitcaskStore.key_count, hdir, KeyDir.length_assign_of_find_none _ _ _ habsent]; rfl
  · exact BitcaskStore.get_set3 crc32 s key v1 v2 v3 hk hkl h3

set_option maxRecDepth 1000000 in
/-- C3 (witness): the overwrite test, `counter` set to `1`, `2`, `3` in a store
opened on an empty file. -/
theorem C3_overwrite_keeps_one_entry_witness :
    str "counter" ≠ []
      ∧ (open_store utils.crc32 [] test_clock).key_dir_.find (str "counter") = none
      ∧ run_completes utils.crc32 (open_store utils.crc32 [] test_clock)
          [Op.set (str "counter") (str "1"), Op.set (str "counter") (str "2"),
           Op.set (str "counter") (str "3")]
      ∧ ((run utils.crc32 (open_store utils.crc32 [] test_clock)
            [Op.set (str "counter") (str "1"), Op.set (str "counter") (str "2"),
             Op.set (str "counter") (str "3")]).key_dir_.filter
            (fun p => decide (p.1 = str "counter"))).length = 1
      ∧ (run utils.crc32 (open_store utils.crc32 [] test_clock)
            [Op.set (str "counter") (str "1"), Op.set (str "counter") (str "2"),
             Op.set (str "counter") (str "3")]).key_count
          = (open_store utils.crc32 [] test_clock).key_count + 1
      ∧ (run utils.crc32 (open_store utils.crc32 [] test_clock)
            [Op.set (str "counter") (str "1"), Op.set (str "counter") (str "2"),
             Op.set (str "counter") (str "3")]).get (str "counter") = some (str "3") :=
  have hk : str "counter" ≠ [] := by decide
  have habsent : (open_store utils.crc32 [] test_clock).key_dir_.find (str "counter") = none := by
    rw [open_store_nil]; rfl
  have hc : run_completes utils.crc32 (open_store utils.crc32 [] test_clock)
      [Op.set (str "counter") (str "1"), Op.set (str "counter") (str "2"),
       Op.set (str "counter") (str "3")] := by decide
  ⟨hk, habsent, hc, C3_overwrite_keeps_one_entry utils.crc32 _ _ _ _ _ hk habsent hc⟩

/-- C4: for every sequence of `set` and `del` calls, each of which returns
normally (so that every `set` has a non-empty key), applied to a store opened
on an empty file, `key_count()` is the number of distinct keys whose most
recent call in the sequence is a `set`. -/
theorem C4_key_count_is_number_of_live_keys (crc32 : Bytes → Nat) (clock : Nat → Nat)
    (ops : List Op) (hc : run_completes crc32 (open_store crc32 [] clock) ops) :
    (run crc32 (open_store crc32 [] clock) ops).key_count = spec_key_count ops :=
  key_count_run crc32 _ (by rw [open_store_nil]) ops
    ((BitcaskStore.run_completes_iff crc32 ops _).1 hc)

set_option maxRecDepth 1000000 in
/-- C4 (witness): the basic-operations test, where `hello`, `foo`, `key123` are
set and `foo` is deleted: `key_count()` is 2. -/
theorem C4_key_count_is_number_of_live_keys_witness :
    (∀ op ∈ test_basic_operations, op.key ≠ [])
      ∧ run_completes utils.crc32 (open_store utils.crc32 [] test_clock) test_basic_operations
      ∧ (run utils.crc32 (open_store utils.crc32 [] test_clock) test_basic_operations).key_count
          = spec_key_count test_basic_operations
      ∧ spec_key_count test_basic_operations = 2 :=
  have hkeys : ∀ op ∈ test_basic_operations, op.key ≠ [] := by decide
  have hc : run_completes utils.crc32 (open_store utils.crc32 [] test_clock)
      test_basic_operations := by decide
  ⟨hkeys, hc, C4_key_count_is_number_of_live_keys utils.crc32 test_clock _ hc, by decide⟩

/-- Where the code keeps recovery fidelity: for every sequence of `set` and
`del` calls that go out in one `write` each and set no empty value, applied to
a store opened on an empty file, closing the store and reopening it on the same
file yields an index with the same live keys (and as many of them) as before
the close, and `get` returns for every key what it returned before the close. -/
theorem recovery_fidelity_of_replayable (crc32 : Bytes → Nat) (clock : Nat → Nat)
    (ops : List Op) (hops : ∀ op ∈ ops, op.replayable) :
    (∀ key, ((reopen crc32 (run crc32 (open_store crc32 [] clock) ops)).key_dir_.find key).isSome
        = ((run crc32 (open_store crc32 [] clock) ops).key_dir_.find key).isSome)
      ∧ (reopen crc32 (run crc32 (open_store crc32 [] clock) ops)).key_count
          = (run crc32 (open_store crc32 [] clock) ops).key_count
      ∧ ∀ key, (reopen crc32 (run crc32 (open_store crc32 [] clock) ops)).get key
          = (run crc32 (open_store crc32 [] clock) ops).get key := by
  obtain ⟨rs, hrs, hfile, hloc⟩ := run_log_invariant crc32 ops hops
    (open_store crc32 [] clock) [] (fun _ h => absurd h (List.not_mem_nil _))
    (by rw [open_store_nil]; rfl) (by rw [open_store_nil]; rfl)
  obtain ⟨hfile', hdir'⟩ := reopen_log crc32 _ rs hrs hfile
  have hloc' : KeyDir.locations (reopen crc32 (run crc32 (open_store crc32 [] clock) ops)).key_dir_
      = KeyDir.locations (run crc32 (open_store crc32 [] clock) ops).key_dir_ := by
    rw [hdir', hloc]
  exact ⟨fun key => KeyDir.isSome_find_of_locations_eq _ _ hloc' key,
    KeyDir.length_of_locations_eq _ _ hloc',
    fun key => BitcaskStore.get_congr _ _ hfile' hloc' key⟩

set_option maxRecDepth 1000000 in
/-- C5 (the code at the failing input): `set("a", "")` on a store opened on an
empty file, then close and reopen. The call returns normally; before the close
`a` is live, `get("a")` returns the empty value and `key_count()` is 1. The
reopened store replays the record, whose value length is zero, as a tombstone:
`a` is absent and `key_count()` is 0. -/
theorem C5_empty_value_is_lost_on_reopen :
    ((open_store utils.crc32 [] test_clock).set utils.crc32 (str "a") []).1 = Except.ok ()
      ∧ (run utils.crc32 (open_store utils.crc32 [] test_clock) [Op.set (str "a") []]).get
          (str "a") = some []
      ∧ (run utils.crc32 (open_store utils.crc32 [] test_clock) [Op.set (str "a") []]).key_count
        = 1
      ∧ (reopen utils.crc32 (run utils.crc32 (open_store utils.crc32 [] test_clock)
          [Op.set (str "a") []])).get (str "a") = none
      ∧ (reopen utils.crc32 (run utils.crc32 (open_store utils.crc32 [] test_clock)
          [Op.set (str "a") []])).key_count = 0 := by
  decide

/-- Where the code keeps a deletion: for every key `k` and value `v` that go
out in one `write` each, in a store whose file is a log of well-formed records
(as it is after opening an empty file), after `set(k, v)`, `del(k)`, close and
reopen on the same file, `get(k)` returns absent: `recover` replays the
tombstone and removes `k`. -/
theorem tombstone_durability_on_whole_log (crc32 : Bytes → Nat) (s : BitcaskStore)
    (rs : List LogRecord) (hrs : ∀ r ∈ rs, r.well_formed) (hfile : s.file = log_bytes crc32 rs)
    (key value : Bytes) (hk : key.length ≤ MAX_RW_COUNT) (hv : value.length ≤ MAX_RW_COUNT) :
    (reopen crc32 ((s.set crc32 key value).2.del crc32 key).2).get key = none
      ∧ (reopen crc32 ((s.set crc32 key value).2.del crc32 key).2).key_dir_.find key = none := by
  obtain ⟨rs', hrs', hfile'⟩ := set_file_log crc32 s rs hrs hfile key value hk hv
  have hnone := find_reopen_del crc32 _ rs' hrs' hfile' key hk
  exact ⟨BitcaskStore.get_eq_none_of_absent _ _ hnone, hnone⟩

set_option maxRecDepth 1000000 in
/-- C6 (the code at the failing input): the store is opened on `torn_log`,
where a crash cut the second record short behind the complete record of
`set("foo", "old")`. `set("foo", "bar")` and `del("foo")` return normally and
append their records behind the torn one; `get("foo")` returns absent. On
reopening, `recover` stops at the torn record, never reaches the tombstone,
and `get("foo")` returns `old`. -/
theorem C6_tombstone_behind_torn_record_is_lost :
    torn_log
        = [202, 254, 109, 95, 0, 241, 83, 101, 3, 0, 0, 0, 3, 0, 0, 0, 102, 111, 111, 111, 108, 100,
           233, 5, 7, 14, 2, 241, 83, 101, 3, 0, 0, 0, 3, 0, 0, 0, 102, 111]
      ∧ (open_store utils.crc32 torn_log test_clock).get (str "foo") = some (str "old")
      ∧ ((open_store utils.crc32 torn_log test_clock).set utils.crc32 (str "foo")
            (str "bar")).1 = Except.ok ()
      ∧ (((open_store utils.crc32 torn_log test_clock).set utils.crc32 (str "foo")
            (str "bar")).2.del utils.crc32 (str "foo")).1 = Except.ok ()
      ∧ (((open_store utils.crc32 torn_log test_clock).set utils.crc32 (str "foo")
            (str "bar")).2.del utils.crc32 (str "foo")).2.get (str "foo") = none
      ∧ (reopen utils.crc32 (((open_store utils.crc32 torn_log test_clock).set utils.crc32
            (str "foo") (str "bar")).2.del utils.crc32 (str "foo")).2).get (str "foo")
          = some (str "old") := by
  decide

set_option maxRecDepth 1000000 in
/-- C7 (the code at the failing input): the 37-byte file `truncated_log` holds
the complete record of `set("k1", "v1")` and the record of `set("a", "\0")`
without its last byte. `recover` indexes the cut record all the same: its
value buffer stays zero-filled and so passes the checksum. The entry points
behind the end of the file, and `get("a")` returns absent. -/
theorem C7_truncated_record_is_indexed :
    truncated_log.length = 37
      ∧ (open_store utils.crc32 truncated_log test_clock).key_dir_
          = [(str "a", { file_id := 0, value_size := 1, value_pos := 37, timestamp := 1700000002 }),
             (str "k1", { file_id := 0, value_size := 2, value_pos := 18, timestamp := 1700000000 })]
      ∧ replay_index [] 0 [⟨test_clock 0, str "k1", str "v1"⟩]
          = [(str "k1", { file_id := 0, value_size := 2, value_pos := 18, timestamp := 1700000000 })]
      ∧ (open_store utils.crc32 truncated_log test_clock).get (str "a") = none := by
  decide

/-- C8 (as amended): for every log of well-formed records and every single bit
flipped inside one record's timestamp, key_size, value_size, key bytes or value
bytes: (a) when the bit lies in the timestamp, the key bytes or the value bytes
and the checksum detects every change of a single byte, `recover` excludes that
record and every record after it, yielding exactly the index of the records
before the tampered one; (b) wherever the bit lies, `recover` does so whenever
the record it reads back at that place fails `verify_entry`. -/
theorem C8_detected_flip_excludes_record (crc32 : Bytes → Nat) (clock : Nat → Nat)
    (rs1 : List LogRecord) (r : LogRecord) (rs2 : List LogRecord)
    (hrs : ∀ x ∈ rs1 ++ r :: rs2, x.well_formed) (i : Nat)
    (hlo : 8 * ((log_bytes crc32 rs1).length + 4) ≤ i)
    (hhi : i < 8 * ((log_bytes crc32 rs1).length + r.size)) :
    (detects_byte_change crc32 →
        (i / 8 < (log_bytes crc32 rs1).length + 8 ∨ (log_bytes crc32 rs1).length + 16 ≤ i / 8) →
        (open_store crc32 (flip_bit (log_bytes crc32 (rs1 ++ r :: rs2)) i) clock).key_dir_
          = replay_index [] 0 rs1)
      ∧ (verifies_at crc32 (flip_bit (log_bytes crc32 (rs1 ++ r :: rs2)) i)
            (log_bytes crc32 rs1).length = false →
          (open_store crc32 (flip_bit (log_bytes crc32 (rs1 ++ r :: rs2)) i) clock).key_dir_
            = replay_index [] 0 rs1) := by
  have hrs1 : ∀ x ∈ rs1, x.well_formed := fun x hx => hrs x (List.mem_append_left _ hx)
  have hr : r.well_formed := hrs r (List.mem_append_right _ (List.mem_cons_self r rs2))
  have hflip : flip_bit (log_bytes crc32 (rs1 ++ r :: rs2)) i
      = log_bytes crc32 rs1
          ++ (flip_bit (r.bytes crc32) (i - 8 * (log_bytes crc32 rs1).length)
            ++ log_bytes crc32 rs2) := by
    rw [log_bytes_append, flip_bit_append _ _ i (by omega), log_bytes_cons,
      flip_bit_append_left _ _ _ (by rw [LogRecord.length_record_bytes]; omega)]
  have hstop : verifies_at crc32 (flip_bit (log_bytes crc32 (rs1 ++ r :: rs2)) i)
        (log_bytes crc32 rs1).length = false →
      (open_store crc32 (flip_bit (log_bytes crc32 (rs1 ++ r :: rs2)) i) clock).key_dir_
        = replay_index [] 0 rs1 := fun hdetect =>
    recover_tampered crc32
      { file := flip_bit (log_bytes crc32 (rs1 ++ r :: rs2)) i, key_dir_ := [], clock := clock,
        ticks := 0, trace := [] } rs1 hrs1 _ hflip hdetect
  refine ⟨fun hcrc hfield => hstop ?_, hstop⟩
  rw [hflip]
  apply verifies_at_flipped_record crc32 hcrc _ _ r hr
  rcases hfield with h | h
  · left; omega
  · right; omega

set_option maxRecDepth 1000000 in
/-- C8 (witness): the log of `set("k1", "v1")` and `set("foo", "bar")`, bit 288
flipped: the lowest bit of the first key byte of the second record. CRC-32
detects the change of one byte, and only `k1` is indexed. -/
theorem C8_detected_flip_excludes_record_witness :
    (∀ x ∈ [record_k1] ++ record_foo :: [], x.well_formed)
      ∧ 8 * ((log_bytes utils.crc32 [record_k1]).length + 4) ≤ 288
      ∧ 288 < 8 * ((log_bytes utils.crc32 [record_k1]).length + record_foo.size)
      ∧ detects_byte_change utils.crc32
      ∧ (log_bytes utils.crc32 [record_k1]).length + 16 ≤ 288 / 8
      ∧ (open_store utils.crc32
            (flip_bit (log_bytes utils.crc32 ([record_k1] ++ record_foo :: [])) 288)
            test_clock).key_dir_
          = replay_index [] 0 [record_k1]
      ∧ replay_index [] 0 [record_k1]
          = [(str "k1", { file_id := 0, value_size := 2, value_pos := 18,
                          timestamp := 1700000000 })] :=
  have hrs : ∀ x ∈ [record_k1] ++ record_foo :: [], x.well_formed := by decide
  have hlo : 8 * ((log_bytes utils.crc32 [record_k1]).length + 4) ≤ 288 := by decide
  have hhi : 288 < 8 * ((log_bytes utils.crc32 [record_k1]).length + record_foo.size) := by
    decide
  have hfield : (log_bytes utils.crc32 [record_k1]).length + 16 ≤ 288 / 8 := by decide
  ⟨hrs, hlo, hhi, utils.crc32_detects_byte_change, hfield,
    (C8_detected_flip_excludes_record utils.crc32 test_clock [record_k1] record_foo [] hrs 288
      hlo hhi).1 utils.crc32_detects_byte_change (Or.inr hfield),
    by decide⟩

set_option maxRecDepth 1000000 in
/-- C8 (counterexample): the log `foo_bar_log` holds the one record of
`set("foo", "bar")` made at 1,309,589,486. Flipping bit 0 of its value_size
field (bit 96 of the file: 3 becomes 2) leaves a record whose CRC-32 over
timestamp, sizes, `foo` and `ba` equals the stored one. `recover` indexes
the tampered record, where the claim has the empty index of the records before
it; `get("foo")` returns `ba`. -/
theorem C8_counterexample_undetected_flip :
    flip_bit foo_bar_log 96 ≠ foo_bar_log
      ∧ (open_store utils.crc32 (flip_bit foo_bar_log 96) test_clock).key_dir_
          = [(str "foo", { file_id := 0, value_size := 2, value_pos := 19,
                           timestamp := 1309589486 })]
      ∧ replay_index [] 0 [] = []
      ∧ (open_store utils.crc32 (flip_bit foo_bar_log 96) test_clock).get (str "foo")
          = some (str "ba") := by
  decide

/-- C9: `set(k, v)` with an empty key throws `std::invalid_argument` for every
value and in every store state, before any effect: the file, the index, the
clock and the trace of effects are those of the state before the call. -/
theorem C9_set_empty_key_is_rejected (crc32 : Bytes → Nat) (s : BitcaskStore) (value : Bytes) :
    s.set crc32 [] value = (Except.error Error.invalid_argument, s) :=
  BitcaskStore.set_empty_key crc32 s value

/-- C10 (as amended): when the index holds an entry for `k` but the file has
fewer than `value_size` bytes from `value_pos` on, `get(k)` returns
`std::nullopt`, the same result as for a key that is not in the index. -/
theorem C10_short_read_returns_nullopt (s : BitcaskStore) (key other : Bytes)
    (entry : KeyDirEntry) (hfind : s.key_dir_.find key = some entry)
    (hshort : s.file.length - entry.value_pos < entry.value_size)
    (habsent : s.key_dir_.find other = none) :
    s.get key = none ∧ s.get key = s.get other := by
  rw [BitcaskStore.get_eq_none_of_short s key entry hfind hshort,
    BitcaskStore.get_eq_none_of_absent s other habsent]
  exact ⟨rfl, rfl⟩

set_option maxRecDepth 1000000 in
/-- C10 (witness): the store `truncated_store`, whose file was cut to 20 bytes
after `set("k", "value")`; `nonexistent` is not in the index. -/
theorem C10_short_read_returns_nullopt_witness :
    truncated_store.key_dir_.find (str "k")
        = some { file_id := 0, value_size := 5, value_pos := 17, timestamp := 1700000001 }
      ∧ truncated_store.file.length - 17 < 5
      ∧ truncated_store.key_dir_.find (str "nonexistent") = none
      ∧ truncated_store.get (str "k") = none
      ∧ truncated_store.get (str "k") = truncated_store.get (str "nonexistent") :=
  have hfind : truncated_store.key_dir_.find (str "k")
      = some { file_id := 0, value_size := 5, value_pos := 17, timestamp := 1700000001 } := by
    decide
  have hshort : truncated_store.file.length - 17 < 5 := by decide
  have habsent : truncated_store.key_dir_.find (str "nonexistent") = none := by decide
  ⟨hfind, hshort, habsent,
    C10_short_read_returns_nullopt truncated_store _ _ _ hfind hshort habsent⟩

set_option maxRecDepth 1000000 in
/-- C10 (counterexample): in `truncated_store` the index holds an entry for `k`
that the 20-byte file cannot supply, `nonexistent` is not in the index, and
`get` returns the same `std::nullopt` for both. -/
theorem C10_counterexample_short_read_looks_absent :
    truncated_store.key_dir_.find (str "k") ≠ none
      ∧ truncated_store.key_dir_.find (str "nonexistent") = none
      ∧ truncated_store.get (str "k") = truncated_store.get (str "nonexistent") := by
  decide

/-! ## Order of effects, layout of a record, and the file as an append-only log -/

theorem u32_bytes_u32 (n : Nat) : u32_bytes (u32 n) = u32_bytes n := by
  simp only [u32_bytes, u32, List.cons.injEq, and_true]
  refine ⟨Fin.ext ?_, Fin.ext ?_, Fin.ext ?_, Fin.ext ?_⟩ <;>
    · rw [byte_of_val, byte_of_val]
      omega

theorem spec_le32_eq (n : Nat) : spec_le32 n = u32_bytes n := by
  simp [spec_le32, u32_bytes, List.range, List.range.loop]

theorem entry_bytes_eq_spec_layout (crc32 : Bytes → Nat) (now : Nat) (key value : Bytes)
    (hk : key.length < 4294967296) (hv : value.length < 4294967296) :
    BitcaskStore.entry_bytes crc32 now key value
      = spec_record_layout crc32 (u32 now) key value := by
  have h := LogRecord.bytes_layout crc32 ⟨now, key, value⟩ ⟨hk, hv⟩
  simp only [LogRecord.bytes] at h
  rw [h]
  simp only [spec_record_layout, spec_le32_eq, u32_bytes_u32, List.append_assoc]

theorem length_entry_bytes (crc32 : Bytes → Nat) (now : Nat) (key value : Bytes) :
    (BitcaskStore.entry_bytes crc32 now key value).length = 16 + key.length + value.length := by
  have h := LogRecord.length_record_bytes crc32 ⟨now, key, value⟩
  simpa [LogRecord.bytes, LogRecord.size, sizeof_LogHeader] using h

theorem recover_loop_file (crc32 : Bytes → Nat) (file_size : Nat) :
    ∀ (fuel offset : Nat) (s : BitcaskStore),
      (BitcaskStore.recover_loop crc32 file_size fuel offset s).file = s.file := by
  intro fuel
  induction fuel with
  | zero => intro offset s; rfl
  | succ fuel ih =>
    intro offset s
    rw [BitcaskStore.recover_loop]
    split
    · simp only []
      split
      · rfl
      · split
        · rfl
        · rw [ih]
          split <;> rfl
    · rfl

theorem recover_file (crc32 : Bytes → Nat) (s : BitcaskStore) :
    (BitcaskStore.recover crc32 s).file = s.file := by
  unfold BitcaskStore.recover
  simp only []
  split
  · rfl
  · rw [recover_loop_file]

theorem trace_set (crc32 : Bytes → Nat) (s : BitcaskStore) (key value : Bytes) (hk : key ≠ [])
    (hkl : key.length ≤ MAX_RW_COUNT) (hvl : value.length ≤ MAX_RW_COUNT) :
    (s.set crc32 key value).2.trace
      = s.trace ++ [Event.write (BitcaskStore.entry_header crc32 (s.clock s.ticks) key value).bytes,
          Event.write key, Event.write value, Event.index_assign key, Event.fsync] := by
  rw [BitcaskStore.set_eq crc32 s key value hk hkl hvl]

/-- The effects of `del`, whether it returns normally or throws, start with
the removal of the key from the index. -/
theorem trace_del_starts_with_erase (crc32 : Bytes → Nat) (s : BitcaskStore) (key : Bytes) :
    ∃ rest, (s.del crc32 key).2.trace = s.trace ++ Event.index_erase key :: rest := by
  by_cases hkl : key.length ≤ MAX_RW_COUNT
  · rw [BitcaskStore.del_eq crc32 s key hkl]
    exact ⟨_, rfl⟩
  · rw [BitcaskStore.del_key_short crc32 s key (Nat.lt_of_not_le hkl)]
    exact ⟨_, rfl⟩

/-- C11 (as amended): for every non-empty key and every value, a `set` that
returns normally has had its effects in this order: it appends the record to
the log (header, key, value), then updates the index with the new location,
then forces the flush; the index is updated after the append and before the
flush. -/
theorem C11_set_appends_then_indexes_then_syncs (crc32 : Bytes → Nat) (s : BitcaskStore)
    (key value : Bytes) (hk : key ≠ []) (hok : (s.set crc32 key value).1 = Except.ok ()) :
    (s.set crc32 key value).2.trace
      = s.trace ++ [Event.write (BitcaskStore.entry_header crc32 (s.clock s.ticks) key value).bytes,
          Event.write key, Event.write value, Event.index_assign key, Event.fsync] :=
  trace_set crc32 s key value hk ((BitcaskStore.set_ok_iff crc32 s key value).1 hok).2.1
    ((BitcaskStore.set_ok_iff crc32 s key value).1 hok).2.2

set_option maxRecDepth 1000000 in
/-- C11 (witness): `set("foo", "bar")` on a store opened on an empty file. -/
theorem C11_set_appends_then_indexes_then_syncs_witness :
    str "foo" ≠ []
      ∧ ((open_store utils.crc32 [] test_clock).set utils.crc32 (str "foo") (str "bar")).1
        = Except.ok ()
      ∧ ((open_store utils.crc32 [] test_clock).set utils.crc32 (str "foo") (str "bar")).2.trace
        = (open_store utils.crc32 [] test_clock).trace
          ++ [Event.write (BitcaskStore.entry_header utils.crc32
                ((open_store utils.crc32 [] test_clock).clock
                  (open_store utils.crc32 [] test_clock).ticks) (str "foo") (str "bar")).bytes,
              Event.write (str "foo"), Event.write (str "bar"), Event.index_assign (str "foo"),
              Event.fsync] :=
  have hk : str "foo" ≠ [] := by decide
  have hok : ((open_store utils.crc32 [] test_clock).set utils.crc32 (str "foo")
      (str "bar")).1 = Except.ok () := by decide
  ⟨hk, hok, C11_set_appends_then_indexes_then_syncs utils.crc32 _ _ _ hk hok⟩

set_option maxRecDepth 1000000 in
/-- C11 (counterexample): `set("foo", "bar")` on a store opened on an empty
file. The trace of effects has the index update in front of the flush: the
index is updated before the flush of the record has been issued. -/
theorem C11_counterexample_index_updated_before_flush :
    ((open_store utils.crc32 [] test_clock).set utils.crc32 (str "foo") (str "bar")).2.trace
        = [Event.index_clear,
           Event.write (BitcaskStore.entry_header utils.crc32 1700000000 (str "foo") (str "bar")).bytes,
           Event.write (str "foo"), Event.write (str "bar"), Event.index_assign (str "foo"),
           Event.fsync]
      ∧ List.indexOf (Event.index_assign (str "foo"))
            ((open_store utils.crc32 [] test_clock).set utils.crc32 (str "foo") (str "bar")).2.trace
          < List.indexOf Event.fsync
            ((open_store utils.crc32 [] test_clock).set utils.crc32 (str "foo")
              (str "bar")).2.trace := by
  decide

set_option maxRecDepth 1000000 in
/-- C12 (the code at the failing input): `del("foo")` after `set("foo", "bar")`
on a store opened on an empty file. Both calls return normally. In the effects
of `del` the removal from the index comes first, in front of the first write
of the tombstone, and the flush comes last. -/
theorem C12_del_erases_index_before_append :
    ((open_store utils.crc32 [] test_clock).set utils.crc32 (str "foo") (str "bar")).1
        = Except.ok ()
      ∧ (((open_store utils.crc32 [] test_clock).set utils.crc32 (str "foo") (str "bar")).2.del
          utils.crc32 (str "foo")).1 = Except.ok ()
      ∧ ((open_store utils.crc32 [] test_clock).set utils.crc32 (str "foo")
          (str "bar")).2.trace.length = 6
      ∧ (((open_store utils.crc32 [] test_clock).set utils.crc32 (str "foo") (str "bar")).2.del
          utils.crc32 (str "foo")).2.trace.drop 6
        = [Event.index_erase (str "foo"),
           Event.write (BitcaskStore.entry_header utils.crc32 1700000002 (str "foo") []).bytes,
           Event.write (str "foo"), Event.write [], Event.fsync] := by
  decide

/-- C13: for every key and value with lengths below 2^32 and the timestamp `t`
read from the clock, an `append_entry` that returns normally returns the
previous size of the file and has appended exactly `16 + |key| + |value|` bytes
laid out as checksum, `t`, `|key|`, `|value|`, each a 4-byte little-endian
integer, then key and value, where the checksum field is the checksum of the
bytes behind it, in that order. -/
theorem C13_append_entry_layout (crc32 : Bytes → Nat) (s : BitcaskStore) (key value : Bytes)
    (hk : key.length < 4294967296) (hv : value.length < 4294967296)
    (hok : (BitcaskStore.append_entry crc32 s key value).1.isOk = true) :
    (BitcaskStore.append_entry crc32 s key value).1 = Except.ok s.file.length
      ∧ (BitcaskStore.append_entry crc32 s key value).2.file
          = s.file ++ spec_record_layout crc32 (u32 (s.clock s.ticks)) key value
      ∧ (spec_record_layout crc32 (u32 (s.clock s.ticks)) key value).length
          = 16 + key.length + value.length := by
  obtain ⟨hkl, hvl⟩ := (BitcaskStore.append_entry_isOk_iff crc32 s key value).1 hok
  rw [BitcaskStore.append_entry_eq crc32 s key value hkl hvl,
    ← entry_bytes_eq_spec_layout crc32 _ key value hk hv, length_entry_bytes]
  exact ⟨rfl, rfl, rfl⟩

set_option maxRecDepth 1000000 in
/-- C13 (witness): the record of `set("foo", "bar")` appended to an empty file
when the clock reads 1,700,000,000: 22 bytes, the last 18 of which are the
timestamp, the two lengths, `foo` and `bar`. -/
theorem C13_append_entry_layout_witness :
    (str "foo").length < 4294967296 ∧ (str "bar").length < 4294967296
      ∧ (BitcaskStore.append_entry utils.crc32 (open_store utils.crc32 [] test_clock)
            (str "foo") (str "bar")).1.isOk = true
      ∧ ((BitcaskStore.append_entry utils.crc32 (open_store utils.crc32 [] test_clock)
            (str "foo") (str "bar")).1
          = Except.ok (open_store utils.crc32 [] test_clock).file.length
        ∧ (BitcaskStore.append_entry utils.crc32 (open_store utils.crc32 [] test_clock)
            (str "foo") (str "bar")).2.file
          = (open_store utils.crc32 [] test_clock).file
            ++ spec_record_layout utils.crc32
                (u32 ((open_store utils.crc32 [] test_clock).clock
                  (open_store utils.crc32 [] test_clock).ticks)) (str "foo") (str "bar")
        ∧ (spec_record_layout utils.crc32
              (u32 ((open_store utils.crc32 [] test_clock).clock
                (open_store utils.crc32 [] test_clock).ticks)) (str "foo") (str "bar")).length
            = 16 + (str "foo").length + (str "bar").length)
      ∧ (spec_record_layout utils.crc32 1700000000 (str "foo") (str "bar")).drop 4
          = [0, 241, 83, 101, 3, 0, 0, 0, 3, 0, 0, 0, 102, 111, 111, 98, 97, 114] :=
  have hk : (str "foo").length < 4294967296 := by decide
  have hv : (str "bar").length < 4294967296 := by decide
  have hok : (BitcaskStore.append_entry utils.crc32 (open_store utils.crc32 [] test_clock)
      (str "foo") (str "bar")).1.isOk = true := by decide
  ⟨hk, hv, hok, C13_append_entry_layout utils.crc32 _ _ _ hk hv hok, by decide⟩

/-- C16: the log is append-only. In every state, whether they return normally
or throw, `append_entry`, `set` and `del` leave the previous contents of the
file in front of what they write; an `append_entry` that returns normally
returns the previous size of the file as the offset of the record, and the
record is what it, `set` and `del` have put behind the previous contents;
`recover` and `sync` leave the file as it is. (`get` and `key_count` return a
value and no new state: they have no effect on the file.) -/
theorem C16_log_is_append_only (crc32 : Bytes → Nat) (s : BitcaskStore) (key value : Bytes) :
    (∃ more, (BitcaskStore.append_entry crc32 s key value).2.file = s.file ++ more)
      ∧ (∃ more, (s.set crc32 key value).2.file = s.file ++ more)
      ∧ (∃ more, (s.del crc32 key).2.file = s.file ++ more)
      ∧ ((BitcaskStore.append_entry crc32 s key value).1.isOk = true →
          (BitcaskStore.append_entry crc32 s key value).1 = Except.ok s.file.length
            ∧ (BitcaskStore.append_entry crc32 s key value).2.file
                = s.file ++ BitcaskStore.entry_bytes crc32 (s.clock s.ticks) key value)
      ∧ ((s.set crc32 key value).1 = Except.ok () → (s.set crc32 key value).2.file
          = s.file ++ BitcaskStore.entry_bytes crc32 (s.clock s.ticks) key value)
      ∧ ((s.del crc32 key).1 = Except.ok () → (s.del crc32 key).2.file
          = s.file ++ BitcaskStore.entry_bytes crc32 (s.clock s.ticks) key [])
      ∧ (s.recover crc32).file = s.file
      ∧ s.sync.file = s.file := by
  refine ⟨BitcaskStore.file_append_entry crc32 s key value, BitcaskStore.file_set crc32 s key value,
    BitcaskStore.file_del crc32 s key, fun hok => ?_, fun hok => ?_, fun hok => ?_,
    recover_file crc32 s, rfl⟩
  · obtain ⟨hkl, hvl⟩ := (BitcaskStore.append_entry_isOk_iff crc32 s key value).1 hok
    rw [BitcaskStore.append_entry_eq crc32 s key value hkl hvl]
    exact ⟨rfl, rfl⟩
  · obtain ⟨hk, hkl, hvl⟩ := (BitcaskStore.set_ok_iff crc32 s key value).1 hok
    rw [BitcaskStore.set_eq crc32 s key value hk hkl hvl]
  · rw [BitcaskStore.del_eq crc32 s key ((BitcaskStore.del_ok_iff crc32 s key).1 hok)]

/-- C18: for every log of well-formed records followed by between 1 and 15
more bytes (a truncated header), the open goes through: `recover` stops at the
truncated header, and the index is exactly the index of replaying the
well-formed records alone. -/
theorem C18_truncated_header_stops_replay (crc32 : Bytes → Nat) (clock : Nat → Nat)
    (rs : List LogRecord) (hrs : ∀ r ∈ rs, r.well_formed) (tail : Bytes)
    (h1 : 1 ≤ tail.length) (h15 : tail.length ≤ 15) :
    (open_store crc32 (log_bytes crc32 rs ++ tail) clock).key_dir_ = replay_index [] 0 rs
      ∧ (open_store crc32 (log_bytes crc32 rs ++ tail) clock).file
          = log_bytes crc32 rs ++ tail := by
  unfold open_store
  rw [recover_log crc32 _ rs hrs tail (by omega) rfl]
  exact ⟨rfl, rfl⟩

set_option maxRecDepth 1000000 in
/-- C18 (witness): the record of `set("k1", "v1")` followed by three bytes of a
header that was never completed. -/
theorem C18_truncated_header_stops_replay_witness :
    (∀ r ∈ [record_k1], r.well_formed)
      ∧ 1 ≤ ([7, 7, 7] : Bytes).length ∧ ([7, 7, 7] : Bytes).length ≤ 15
      ∧ ((open_store utils.crc32 (log_bytes utils.crc32 [record_k1] ++ [7, 7, 7])
            test_clock).key_dir_ = replay_index [] 0 [record_k1]
        ∧ (open_store utils.crc32 (log_bytes utils.crc32 [record_k1] ++ [7, 7, 7])
            test_clock).file = log_bytes utils.crc32 [record_k1] ++ [7, 7, 7])
      ∧ replay_index [] 0 [record_k1]
          = [(str "k1", { file_id := 0, value_size := 2, value_pos := 18,
                          timestamp := 1700000000 })] :=
  have hrs : ∀ r ∈ [record_k1], r.well_formed := by decide
  have h1 : 1 ≤ ([7, 7, 7] : Bytes).length := by decide
  have h15 : ([7, 7, 7] : Bytes).length ≤ 15 := by decide
  ⟨hrs, h1, h15, C18_truncated_header_stops_replay utils.crc32 test_clock _ hrs _ h1 h15,
    by decide⟩

set_option maxRecDepth 1000000 in
/-- C19 (the code at the failing input): `set("a", "b")` on a store opened on
an empty file, with a clock that reads 1,700,000,000 inside `append_entry` and
1,700,000,001 at the second reading inside `set`. The record in the log has
the first timestamp, the index entry the second; after a reopen the entry has
the timestamp of the record. -/
theorem C19_index_timestamp_is_second_clock_reading :
    (((open_store utils.crc32 [] test_clock).set utils.crc32 (str "a") (str "b")).2.key_dir_.find
          (str "a")).map KeyDirEntry.timestamp = some 1700000001
      ∧ (LogHeader.of_bytes (pread ((open_store utils.crc32 [] test_clock).set utils.crc32
            (str "a") (str "b")).2.file sizeof_LogHeader 0)).timestamp = 1700000000
      ∧ ((reopen utils.crc32 ((open_store utils.crc32 [] test_clock).set utils.crc32 (str "a")
            (str "b")).2).key_dir_.find (str "a")).map KeyDirEntry.timestamp
          = some 1700000000 := by
  decide

/-! ## The most recent record of a key and the replayed index -/

theorem records_at_append (crc32 : Bytes → Nat) (rs more : List LogRecord) :
    ∀ offset, records_at offset (rs ++ more)
      = records_at offset rs ++ records_at (offset + (log_bytes crc32 rs).length) more := by
  induction rs with
  | nil => intro offset; simp [records_at, log_bytes_nil]
  | cons r rs ih =>
    intro offset
    rw [List.cons_append, records_at, records_at, ih, log_bytes_cons, List.length_append,
      LogRecord.length_record_bytes, Nat.add_assoc, List.cons_append]

theorem last_record_nil (key : Bytes) : last_record [] key = none := rfl

theorem last_record_append (crc32 : Bytes → Nat) (rs : List LogRecord) (r : LogRecord)
    (key : Bytes) :
    last_record (rs ++ [r]) key
      = if r.key = key then some ((log_bytes crc32 rs).length, r) else last_record rs key := by
  unfold last_record
  rw [records_at_append crc32 rs [r] 0, records_at, records_at, List.reverse_append,
    List.reverse_cons, List.reverse_nil, List.nil_append, List.singleton_append,
    List.find?_cons, Nat.zero_add]
  by_cases h : r.key = key <;> simp [h]

theorem find_index_step (m : KeyDir) (offset : Nat) (r : LogRecord) (key : Bytes) :
    KeyDir.find (index_step m offset r) key
      = if r.key = key then replayed_entry offset r else KeyDir.find m key := by
  unfold index_step replayed_entry
  by_cases hv : r.value.length > 0
  · by_cases hk : r.key = key
    · rw [if_pos hv, if_pos hk, if_pos hv, ← hk, KeyDir.find_assign_self]
    · rw [if_pos hv, if_neg hk, KeyDir.find_assign_ne _ _ (fun e => hk e.symm)]
  · by_cases hk : r.key = key
    · rw [if_neg hv, if_pos hk, if_neg hv, ← hk, KeyDir.find_erase_self]
    · rw [if_neg hv, if_neg hk, KeyDir.find_erase_ne _ (fun e => hk e.symm)]

/-- What the replayed index holds for a key: the entry of its most recent
record, none when that record is a tombstone or when there is no record. -/
theorem find_replay_index (rs : List LogRecord) (key : Bytes) :
    KeyDir.find (replay_index [] 0 rs) key
      = (last_record rs key).bind (fun p => replayed_entry p.1 p.2) := by
  induction rs using List.reverseRecOn with
  | nil => rfl
  | append_singleton rs r ih =>
    rw [replay_index_append (fun _ => 0) rs [r], replay_index, replay_index, find_index_step,
      last_record_append (fun _ => 0), Nat.zero_add]
    by_cases hk : r.key = key
    · rw [if_pos hk, if_pos hk]; rfl
    · rw [if_neg hk, if_neg hk, ih]

theorem replayed_entry_isSome (offset : Nat) (r : LogRecord) :
    (replayed_entry offset r).isSome = true ↔ r.value ≠ [] := by
  unfold replayed_entry
  cases hv : r.value with
  | nil => simp
  | cons b rest => simp

/-- C17: for every log that is a concatenation of well-formed records,
`recover` yields the index obtained by folding the records in file order from
an empty index (`replay_index`: a non-empty value puts the key with
`value_pos = offset + 16 + key length`, its `value_size` and the timestamp of
the record, an empty value removes the key, and the offset moves on by
`16 + key length + value length`). Hence the index holds for each key the entry
of its last record, a key is present exactly when its last record has a
non-empty value, and an empty file yields an empty index. -/
theorem C17_recover_is_replay_of_records (crc32 : Bytes → Nat) (clock : Nat → Nat)
    (rs : List LogRecord) (hrs : ∀ r ∈ rs, r.well_formed) :
    (open_store crc32 (log_bytes crc32 rs) clock).key_dir_ = replay_index [] 0 rs
      ∧ (∀ key, (open_store crc32 (log_bytes crc32 rs) clock).key_dir_.find key
          = (last_record rs key).bind (fun p => replayed_entry p.1 p.2))
      ∧ (∀ key, ((open_store crc32 (log_bytes crc32 rs) clock).key_dir_.find key).isSome = true
          ↔ ∃ o r, last_record rs key = some (o, r) ∧ r.value ≠ [])
      ∧ (open_store crc32 [] clock).key_dir_ = [] := by
  have hdir : (open_store crc32 (log_bytes crc32 rs) clock).key_dir_ = replay_index [] 0 rs := by
    unfold open_store
    rw [recover_log crc32 _ rs hrs [] (by decide) (by rw [List.append_nil])]
  refine ⟨hdir, fun key => by rw [hdir, find_replay_index], fun key => ?_,
    by rw [open_store_nil]⟩
  rw [hdir, find_replay_index]
  cases hl : last_record rs key with
  | none => simp
  | some p =>
    obtain ⟨o, r⟩ := p
    simp only [Option.some_bind, replayed_entry_isSome, Option.some.injEq, Prod.mk.injEq]
    constructor
    · intro h; exact ⟨o, r, ⟨rfl, rfl⟩, h⟩
    · rintro ⟨o', r', ⟨_, hr⟩, h⟩; rw [hr]; exact h

set_option maxRecDepth 1000000 in
/-- C17 (witness): the log of `set("k1", "v1")`, `set("foo", "bar")` and
`del("k1")`: only `foo` is present, with the location of its record. -/
theorem C17_recover_is_replay_of_records_witness :
    (∀ r ∈ [record_k1, record_foo, ⟨test_clock 4, str "k1", []⟩], r.well_formed)
      ∧ ((open_store utils.crc32
              (log_bytes utils.crc32 [record_k1, record_foo, ⟨test_clock 4, str "k1", []⟩])
              test_clock).key_dir_
            = replay_index [] 0 [record_k1, record_foo, ⟨test_clock 4, str "k1", []⟩]
        ∧ (∀ key, (open_store utils.crc32
              (log_bytes utils.crc32 [record_k1, record_foo, ⟨test_clock 4, str "k1", []⟩])
              test_clock).key_dir_.find key
            = (last_record [record_k1, record_foo, ⟨test_clock 4, str "k1", []⟩] key).bind
                (fun p => replayed_entry p.1 p.2))
        ∧ (∀ key, ((open_store utils.crc32
              (log_bytes utils.crc32 [record_k1, record_foo, ⟨test_clock 4, str "k1", []⟩])
              test_clock).key_dir_.find key).isSome = true
            ↔ ∃ o r, last_record [record_k1, record_foo, ⟨test_clock 4, str "k1", []⟩] key
                = some (o, r) ∧ r.value ≠ [])
        ∧ (open_store utils.crc32 [] test_clock).key_dir_ = [])
      ∧ replay_index [] 0 [record_k1, record_foo, ⟨test_clock 4, str "k1", []⟩]
          = [(str "foo", { file_id := 0, value_size := 3, value_pos := 39,
                           timestamp := 1309589486 })] :=
  have hrs : ∀ r ∈ [record_k1, record_foo, ⟨test_clock 4, str "k1", []⟩], r.well_formed := by
    decide
  ⟨hrs, C17_recover_is_replay_of_records utils.crc32 test_clock _ hrs, by decide⟩

/-! ## Termination of the loop of `recover` -/

/-- With fuel for one turn per 16 bytes still to scan, the loop ends by itself,
within that many turns. -/
theorem recover_loop_turns_bound (crc32 : Bytes → Nat) (file_size : Nat) :
    ∀ (fuel offset : Nat) (s : BitcaskStore), (file_size - offset + 15) / 16 ≤ fuel →
      ∃ s' n, recover_loop_turns crc32 file_size fuel offset s = some (s', n)
        ∧ n ≤ (file_size - offset + 15) / 16 := by
  intro fuel
  induction fuel with
  | zero =>
    intro offset s h
    have hge : ¬ offset < file_size := by omega
    exact ⟨s, 0, by rw [recover_loop_turns, if_neg hge], Nat.zero_le _⟩
  | succ fuel ih =>
    intro offset s h
    rw [recover_loop_turns]
    by_cases hlt : offset < file_size
    · have h1 : 1 ≤ (file_size - offset + 15) / 16 := by omega
      simp only [if_pos hlt]
      split
      · exact ⟨s, 1, rfl, h1⟩
      · split
        · exact ⟨s, 1, rfl, h1⟩
        · rename_i hlen hver
          obtain ⟨s', n, hs', hn⟩ := ih
            (offset + (sizeof_LogHeader
              + (LogHeader.of_bytes (pread s.file sizeof_LogHeader offset)).key_size
              + (LogHeader.of_bytes (pread s.file sizeof_LogHeader offset)).value_size))
            (if (LogHeader.of_bytes (pread s.file sizeof_LogHeader offset)).value_size > 0 then
              { s with
                key_dir_ := s.key_dir_.assign
                  (pread_string s.file
                    (LogHeader.of_bytes (pread s.file sizeof_LogHeader offset)).key_size
                    (offset + sizeof_LogHeader))
                  { file_id := 0,
                    value_size :=
                      (LogHeader.of_bytes (pread s.file sizeof_LogHeader offset)).value_size,
                    value_pos := offset + sizeof_LogHeader
                      + (LogHeader.of_bytes (pread s.file sizeof_LogHeader offset)).key_size,
                    timestamp :=
                      (LogHeader.of_bytes (pread s.file sizeof_LogHeader offset)).timestamp },
                trace := s.trace ++ [Event.index_assign
                  (pread_string s.file
                    (LogHeader.of_bytes (pread s.file sizeof_LogHeader offset)).key_size
                    (offset + sizeof_LogHeader))] }
            else
              { s with
                key_dir_ := s.key_dir_.erase
                  (pread_string s.file
                    (LogHeader.of_bytes (pread s.file sizeof_LogHeader offset)).key_size
                    (offset + sizeof_LogHeader)),
                trace := s.trace ++ [Event.index_erase
                  (pread_string s.file
                    (LogHeader.of_bytes (pread s.file sizeof_LogHeader offset)).key_size
                    (offset + sizeof_LogHeader))] })
            (by simp only [sizeof_LogHeader]; omega)
          refine ⟨s', n + 1, ?_, ?_⟩
          · rw [hs']; rfl
          · simp only [sizeof_LogHeader] at hn; omega
    · exact ⟨s, 0, by rw [if_neg hlt], Nat.zero_le _⟩

/-- When the counting loop ends by itself, it ends in the state the loop of
`recover` computes with the same fuel. -/
theorem recover_loop_turns_state (crc32 : Bytes → Nat) (file_size : Nat) :
    ∀ (fuel offset : Nat) (s s' : BitcaskStore) (n : Nat),
      recover_loop_turns crc32 file_size fuel offset s = some (s', n) →
      BitcaskStore.recover_loop crc32 file_size fuel offset s = s' := by
  intro fuel
  induction fuel with
  | zero =>
    intro offset s s' n h
    rw [recover_loop_turns] at h
    split at h
    · cases h
    · cases h; rfl
  | succ fuel ih =>
    intro offset s s' n h
    rw [recover_loop_turns] at h
    rw [BitcaskStore.recover_loop]
    by_cases hlt : offset < file_size
    · simp only [if_pos hlt] at h ⊢
      split
      · rename_i hlen
        rw [if_pos hlen] at h
        cases h; rfl
      · rename_i hlen
        rw [if_neg hlen] at h
        split
        · rename_i hver
          rw [if_pos hver] at h
          cases h; rfl
        · rename_i hver
          rw [if_neg hver] at h
          cases hrec : recover_loop_turns crc32 file_size fuel
              (offset + (sizeof_LogHeader
                + (LogHeader.of_bytes (pread s.file sizeof_LogHeader offset)).key_size
                + (LogHeader.of_bytes (pread s.file sizeof_LogHeader offset)).value_size)) _ with
          | none => rw [hrec] at h; cases h
          | some p =>
            rw [hrec] at h
            simp only [Option.map_some', Option.some.injEq, Prod.mk.injEq] at h
            rw [← h.1]
            exact ih _ _ p.1 p.2 hrec
    · rw [if_neg hlt] at h ⊢
      cases h; rfl

/-- C20: `recover` terminates on every file content. The step of a turn that
goes on, `16 + key_size + value_size` for the 32-bit size fields of any 16
header bytes, is at least 16 and below 2^64, so it does not wrap around in
64-bit arithmetic; with fuel for one turn per 16 bytes still to scan the loop
ends by itself; and the loop of `recover` on a file ends by itself in the
state `recover` returns, after at most `file_size / 16` rounded up turns. -/
theorem C20_recover_terminates (crc32 : Bytes → Nat) (s : BitcaskStore) :
    (∀ header_bytes : Bytes,
        16 ≤ sizeof_LogHeader + (LogHeader.of_bytes header_bytes).key_size
              + (LogHeader.of_bytes header_bytes).value_size
          ∧ sizeof_LogHeader + (LogHeader.of_bytes header_bytes).key_size
              + (LogHeader.of_bytes header_bytes).value_size < 2 ^ 64)
      ∧ (∀ (fuel offset : Nat) (t : BitcaskStore), (s.file.length - offset + 15) / 16 ≤ fuel →
          ∃ t' n, recover_loop_turns crc32 s.file.length fuel offset t = some (t', n)
            ∧ n ≤ (s.file.length - offset + 15) / 16)
      ∧ ∃ n, recover_loop_turns crc32 s.file.length s.file.length 0
              { s with key_dir_ := [], trace := s.trace ++ [Event.index_clear] }
            = some (s.recover crc32, n)
          ∧ n ≤ (s.file.length + 15) / 16 := by
  refine ⟨fun hb => ?_, recover_loop_turns_bound crc32 s.file.length, ?_⟩
  · have hk := u32_of_bytes_lt (hb.drop 8)
    have hv := u32_of_bytes_lt (hb.drop 12)
    simp only [LogHeader.of_bytes, sizeof_LogHeader]
    omega
  · obtain ⟨t', n, ht', hn⟩ := recover_loop_turns_bound crc32 s.file.length s.file.length 0
      { s with key_dir_ := [], trace := s.trace ++ [Event.index_clear] } (by omega)
    refine ⟨n, ?_, by simpa using hn⟩
    rw [ht']
    have hstate := recover_loop_turns_state crc32 _ _ _ _ _ _ ht'
    unfold BitcaskStore.recover
    simp only []
    by_cases h0 : s.file.length = 0
    · rw [if_pos h0]
      rw [h0, recover_loop_turns] at ht'
      simp only [Nat.lt_irrefl, if_false, Option.some.injEq, Prod.mk.injEq] at ht'
      rw [← ht'.1]
    · rw [if_neg h0, hstate]

/-! ## The index points at the most recent record of each key -/

theorem last_record_key {rs : List LogRecord} {key : Bytes} {o : Nat} {r : LogRecord}
    (h : last_record rs key = some (o, r)) : r.key = key ∧ (o, r) ∈ records_at 0 rs := by
  unfold last_record at h
  have h1 := List.find?_some h
  have h2 := List.mem_of_find?_eq_some h
  exact ⟨by simpa using h1, List.mem_reverse.1 h2⟩

theorem mem_records_at (crc32 : Bytes → Nat) (rs : List LogRecord) :
    ∀ (offset o : Nat) (r : LogRecord), (o, r) ∈ records_at offset rs →
      ∃ before after, rs = before ++ r :: after
        ∧ o = offset + (log_bytes crc32 before).length := by
  induction rs with
  | nil => intro offset o r h; simp [records_at] at h
  | cons x rs ih =>
    intro offset o r h
    rw [records_at, List.mem_cons] at h
    rcases h with h | h
    · simp only [Prod.mk.injEq] at h
      exact ⟨[], rs, by rw [h.2]; rfl, by rw [h.1, log_bytes_nil]; rfl⟩
    · obtain ⟨before, after, hrs, ho⟩ := ih _ _ _ h
      refine ⟨x :: before, after, by rw [hrs]; rfl, ?_⟩
      rw [ho, log_bytes_cons, List.length_append, LogRecord.length_record_bytes, Nat.add_assoc]

/-- The bytes of the log at the place where the most recent record of a key
has its value are that value. -/
theorem pread_last_record (crc32 : Bytes → Nat) (rs : List LogRecord) (key : Bytes) (o : Nat)
    (r : LogRecord) (h : last_record rs key = some (o, r)) :
    pread (log_bytes crc32 rs) r.value.length (o + sizeof_LogHeader + key.length) = r.value := by
  obtain ⟨hkey, hmem⟩ := last_record_key h
  obtain ⟨before, after, hrs, ho⟩ := mem_records_at crc32 rs 0 o r hmem
  have hfile : log_bytes crc32 rs
      = (log_bytes crc32 before ++ (BitcaskStore.entry_header crc32 r.now r.key r.value).bytes
          ++ r.key) ++ (r.value ++ log_bytes crc32 after) := by
    rw [hrs, log_bytes_append, log_bytes_cons]
    simp only [LogRecord.bytes, BitcaskStore.entry_bytes, List.append_assoc]
  have hpos : o + sizeof_LogHeader + key.length
      = (log_bytes crc32 before ++ (BitcaskStore.entry_header crc32 r.now r.key r.value).bytes
          ++ r.key).length := by
    rw [ho, ← hkey]
    simp only [List.length_append, LogHeader.length_header_bytes, sizeof_LogHeader, Nat.zero_add]
  rw [hfile, hpos, pread_append]
  exact List.take_left _ _

theorem points_at_last_replay (strict : Prop) (rs : List LogRecord) :
    KeyDir.points_at_last strict (replay_index [] 0 rs) rs := by
  intro key entry hfind
  rw [find_replay_index] at hfind
  cases hl : last_record rs key with
  | none => rw [hl] at hfind; cases hfind
  | some p =>
    obtain ⟨o, r⟩ := p
    rw [hl] at hfind
    have hkey := (last_record_key hl).1
    simp only [Option.some_bind, replayed_entry] at hfind
    by_cases hv : r.value.length > 0
    · rw [if_pos hv] at hfind
      cases hfind
      refine ⟨o, r, rfl, by rw [hkey], rfl, fun _ hnil => ?_⟩
      rw [hnil] at hv
      exact Nat.lt_irrefl 0 hv
    · rw [if_neg hv] at hfind; cases hfind

theorem points_at_last_assign (crc32 : Bytes → Nat) (strict : Prop) (m : KeyDir)
    (rs : List LogRecord) (r : LogRecord) (entry : KeyDirEntry)
    (hm : KeyDir.points_at_last strict m rs)
    (hpos : entry.value_pos = (log_bytes crc32 rs).length + sizeof_LogHeader + r.key.length)
    (hsize : entry.value_size = r.value.length) (hstrict : strict → r.value ≠ []) :
    KeyDir.points_at_last strict (KeyDir.assign m r.key entry) (rs ++ [r]) := by
  intro key e hfind
  rw [last_record_append crc32]
  by_cases hk : r.key = key
  · rw [← hk, KeyDir.find_assign_self] at hfind
    cases hfind
    rw [if_pos hk, ← hk]
    exact ⟨_, r, rfl, hpos, hsize, hstrict⟩
  · rw [KeyDir.find_assign_ne _ _ (fun e' => hk e'.symm)] at hfind
    rw [if_neg hk]
    exact hm key e hfind

theorem points_at_last_erase (crc32 : Bytes → Nat) (strict : Prop) (m : KeyDir)
    (rs : List LogRecord) (r : LogRecord) (hm : KeyDir.points_at_last strict m rs) :
    KeyDir.points_at_last strict (KeyDir.erase m r.key) (rs ++ [r]) := by
  intro key e hfind
  rw [last_record_append crc32]
  by_cases hk : r.key = key
  · rw [← hk, KeyDir.find_erase_self] at hfind
    cases hfind
  · rw [KeyDir.find_erase_ne _ (fun e' => hk e'.symm)] at hfind
    rw [if_neg hk]
    exact hm key e hfind

theorem run_calls_cons (crc32 : Bytes → Nat) (s : BitcaskStore) (c : Call) (calls : List Call) :
    run_calls crc32 s (c :: calls) = run_calls crc32 (Call.apply crc32 s c) calls := rfl

/-- When a step returns normally. -/
theorem call_result_ok_iff (crc32 : Bytes → Nat) (s : BitcaskStore) (c : Call) :
    c.result crc32 s = Except.ok () ↔ c.goes_through := by
  cases c with
  | set k v => exact BitcaskStore.set_ok_iff crc32 s k v
  | del k => exact BitcaskStore.del_ok_iff crc32 s k
  | reopen => exact ⟨fun _ => trivial, fun _ => rfl⟩

/-- When every step of a sequence returns normally, whatever the state the
sequence starts in. -/
theorem run_calls_completes_iff (crc32 : Bytes → Nat) (calls : List Call) :
    ∀ s : BitcaskStore,
      run_calls_completes crc32 s calls ↔ ∀ c ∈ calls, c.goes_through := by
  induction calls with
  | nil => intro s; simp [run_calls_completes]
  | cons c calls ih =>
    intro s
    simp only [run_calls_completes, call_result_ok_iff, ih, List.mem_cons, forall_eq_or_imp]

/-- The log and the index after a sequence of steps that go through, on a
store whose file is a log of well-formed records and whose index points at the
most recent record of each key: the same holds again. -/
theorem run_calls_invariant (crc32 : Bytes → Nat) (strict : Prop) (calls : List Call)
    (hfit : ∀ c ∈ calls, c.goes_through)
    (hstrict : strict → ∀ c ∈ calls, c.sets_no_empty_value) :
    ∀ (s : BitcaskStore) (rs : List LogRecord), (∀ r ∈ rs, r.well_formed) →
      s.file = log_bytes crc32 rs → KeyDir.points_at_last strict s.key_dir_ rs →
      ∃ rs', (∀ r ∈ rs', r.well_formed) ∧ (run_calls crc32 s calls).file = log_bytes crc32 rs'
        ∧ KeyDir.points_at_last strict (run_calls crc32 s calls).key_dir_ rs' := by
  induction calls with
  | nil => intro s rs hrs hfile hm; exact ⟨rs, hrs, hfile, hm⟩
  | cons c calls ih =>
    intro s rs hrs hfile hm
    have hc : c.goes_through := hfit c (List.mem_cons_self c calls)
    have hfit' : ∀ x ∈ calls, x.goes_through :=
      fun x hx => hfit x (List.mem_cons_of_mem c hx)
    have hstrict' : strict → ∀ x ∈ calls, x.sets_no_empty_value :=
      fun hs x hx => hstrict hs x (List.mem_cons_of_mem c hx)
    rw [run_calls_cons]
    cases c with
    | set k v =>
      obtain ⟨hk, hkl, hvl⟩ := hc
      have hkl' := Nat.lt_of_le_of_lt hkl BitcaskStore.MAX_RW_COUNT_lt
      have hvl' := Nat.lt_of_le_of_lt hvl BitcaskStore.MAX_RW_COUNT_lt
      apply ih hfit' hstrict' _ (rs ++ [⟨s.clock s.ticks, k, v⟩])
      · intro r hr
        rcases List.mem_append.1 hr with h | h
        · exact hrs r h
        · rw [List.mem_singleton.1 h]; exact ⟨hkl', hvl'⟩
      · simp only [Call.apply, BitcaskStore.set_eq crc32 s k v hk hkl hvl, hfile,
          log_bytes_append, log_bytes_cons, log_bytes_nil, List.append_nil, LogRecord.bytes]
      · simp only [Call.apply, BitcaskStore.set_eq crc32 s k v hk hkl hvl]
        exact points_at_last_assign crc32 strict s.key_dir_ rs ⟨s.clock s.ticks, k, v⟩ _ hm
          (by rw [hfile]) (u32_of_lt hvl')
          (fun hs => hstrict hs (Call.set k v) (List.mem_cons_self _ _))
    | del k =>
      have hkl : k.length ≤ MAX_RW_COUNT := hc
      have hkl' := Nat.lt_of_le_of_lt hkl BitcaskStore.MAX_RW_COUNT_lt
      apply ih hfit' hstrict' _ (rs ++ [⟨s.clock s.ticks, k, []⟩])
      · intro r hr
        rcases List.mem_append.1 hr with h | h
        · exact hrs r h
        · rw [List.mem_singleton.1 h]; exact ⟨hkl', Nat.succ_pos _⟩
      · simp only [Call.apply, BitcaskStore.del_eq crc32 s k hkl, hfile, log_bytes_append,
          log_bytes_cons, log_bytes_nil, List.append_nil, LogRecord.bytes]
      · simp only [Call.apply, BitcaskStore.del_eq crc32 s k hkl]
        exact points_at_last_erase crc32 strict s.key_dir_ rs ⟨s.clock s.ticks, k, []⟩ hm
    | reopen =>
      obtain ⟨hfile', hdir'⟩ := reopen_log crc32 s rs hrs hfile
      apply ih hfit' hstrict' _ rs hrs
      · simp only [Call.apply, hfile', hfile]
      · simp only [Call.apply, hdir']
        exact points_at_last_replay strict rs

theorem run_calls_from_empty (crc32 : Bytes → Nat) (strict : Prop) (clock : Nat → Nat)
    (calls : List Call) (hfit : ∀ c ∈ calls, c.goes_through)
    (hstrict : strict → ∀ c ∈ calls, c.sets_no_empty_value) :
    ∃ rs, (∀ r ∈ rs, r.well_formed)
      ∧ (run_calls crc32 (open_store crc32 [] clock) calls).file = log_bytes crc32 rs
      ∧ KeyDir.points_at_last strict (run_calls crc32 (open_store crc32 [] clock) calls).key_dir_
          rs := by
  apply run_calls_invariant crc32 strict calls hfit hstrict _ []
  · intro r hr; cases hr
  · rw [open_store_nil]; rfl
  · rw [open_store_nil]
    intro key entry hfind
    cases hfind

/-- C14: in every state reachable from opening an empty file by `set` and
`del` calls that return normally and by closing and reopening, the file is a
log of well-formed records, and for every key present in the index the entry's
`value_pos` is the offset of the most recently appended record for the key
plus 16 plus the length of the key, its `value_size` is the length of that
record's value, and the `value_size` bytes of the log at `value_pos` are that
record's value. -/
theorem C14_index_location_invariant (crc32 : Bytes → Nat) (clock : Nat → Nat)
    (calls : List Call) (hc : run_calls_completes crc32 (open_store crc32 [] clock) calls) :
    ∃ rs, (∀ r ∈ rs, r.well_formed)
      ∧ (run_calls crc32 (open_store crc32 [] clock) calls).file = log_bytes crc32 rs
      ∧ ∀ key entry,
          (run_calls crc32 (open_store crc32 [] clock) calls).key_dir_.find key = some entry →
          ∃ o r, last_record rs key = some (o, r) ∧ r.key = key
            ∧ entry.value_pos = o + 16 + key.length
            ∧ entry.value_size = r.value.length
            ∧ pread (run_calls crc32 (open_store crc32 [] clock) calls).file
                entry.value_size entry.value_pos = r.value := by
  obtain ⟨rs, hrs, hfile, hm⟩ :=
    run_calls_from_empty crc32 False clock calls
      ((run_calls_completes_iff crc32 calls _).1 hc) (fun h => h.elim)
  refine ⟨rs, hrs, hfile, fun key entry hfind => ?_⟩
  obtain ⟨o, r, hlast, hpos, hsize, _⟩ := hm key entry hfind
  refine ⟨o, r, hlast, (last_record_key hlast).1, hpos, hsize, ?_⟩
  rw [hfile, hpos, hsize]
  exact pread_last_record crc32 rs key o r hlast

set_option maxRecDepth 1000000 in
/-- C14 (witness): the steps of `test_calls`, which all return normally; `foo`
is present at the end, with the location of the value of its second record. -/
theorem C14_index_location_invariant_witness :
    run_calls_completes utils.crc32 (open_store utils.crc32 [] test_clock) test_calls
      ∧ (∃ rs, (∀ r ∈ rs, r.well_formed)
          ∧ (run_calls utils.crc32 (open_store utils.crc32 [] test_clock) test_calls).file
              = log_bytes utils.crc32 rs
          ∧ ∀ key entry,
              (run_calls utils.crc32 (open_store utils.crc32 [] test_clock)
                test_calls).key_dir_.find key = some entry →
              ∃ o r, last_record rs key = some (o, r) ∧ r.key = key
                ∧ entry.value_pos = o + 16 + key.length
                ∧ entry.value_size = r.value.length
                ∧ pread (run_calls utils.crc32 (open_store utils.crc32 [] test_clock)
                    test_calls).file entry.value_size entry.value_pos = r.value)
      ∧ (run_calls utils.crc32 (open_store utils.crc32 [] test_clock)
            test_calls).key_dir_.find (str "foo")
          = some { file_id := 0, value_size := 3, value_pos := 79, timestamp := 1700000006 } :=
  have hc : run_calls_completes utils.crc32 (open_store utils.crc32 [] test_clock) test_calls := by
    decide
  ⟨hc, C14_index_location_invariant utils.crc32 test_clock test_calls hc, by decide⟩

/-- Where the code keeps tombstoned keys out of the index: in every state
reachable from opening an empty file by `set` calls with non-empty values and
`del` calls that return normally and by closing and reopening, the file is a
log of well-formed records and the index holds no entry for a key whose most
recent record in the log is a tombstone, that is, a record with value length
zero. -/
theorem no_entry_for_tombstoned_key_of_no_empty_set (crc32 : Bytes → Nat) (clock : Nat → Nat)
    (calls : List Call) (hc : run_calls_completes crc32 (open_store crc32 [] clock) calls)
    (hvalues : ∀ c ∈ calls, c.sets_no_empty_value) :
    ∃ rs, (∀ r ∈ rs, r.well_formed)
      ∧ (run_calls crc32 (open_store crc32 [] clock) calls).file = log_bytes crc32 rs
      ∧ ∀ key o r, last_record rs key = some (o, r) → r.value.length = 0 →
          (run_calls crc32 (open_store crc32 [] clock) calls).key_dir_.find key = none := by
  obtain ⟨rs, hrs, hfile, hm⟩ :=
    run_calls_from_empty crc32 True clock calls
      ((run_calls_completes_iff crc32 calls _).1 hc) (fun _ => hvalues)
  refine ⟨rs, hrs, hfile, fun key o r hlast hzero => ?_⟩
  cases hfind : (run_calls crc32 (open_store crc32 [] clock) calls).key_dir_.find key with
  | none => rfl
  | some entry =>
    obtain ⟨o', r', hlast', _, _, hne⟩ := hm key entry hfind
    rw [hlast] at hlast'
    cases hlast'
    exact absurd (List.length_eq_zero.1 hzero) (hne trivial)

set_option maxRecDepth 1000000 in
/-- C15 (the code at the failing input): `set("a", "")` on a store opened on an
empty file. The call returns normally. The log is the one record of `a`, which
has value length zero and so is a tombstone, the most recent record of `a`;
and the index holds an entry for `a`, of `value_size` 0. Replaying the same log,
`recover` leaves no entry for `a`. -/
theorem C15_set_empty_value_is_indexed :
    ((open_store utils.crc32 [] test_clock).set utils.crc32 (str "a") []).1 = Except.ok ()
      ∧ (run_calls utils.crc32 (open_store utils.crc32 [] test_clock)
          [Call.set (str "a") []]).file
        = log_bytes utils.crc32 [⟨test_clock 0, str "a", []⟩]
      ∧ last_record [⟨test_clock 0, str "a", []⟩] (str "a")
        = some (0, ⟨test_clock 0, str "a", []⟩)
      ∧ (run_calls utils.crc32 (open_store utils.crc32 [] test_clock)
          [Call.set (str "a") []]).key_dir_.find (str "a")
        = some { file_id := 0, value_size := 0, value_pos := 17, timestamp := 1700000001 }
      ∧ (run_calls utils.crc32 (open_store utils.crc32 [] test_clock)
          [Call.set (str "a") [], Call.reopen]).key_dir_.find (str "a") = none := by
  decide

end storage

end granite
